import Mathlib

/-!
Verification development for the SubzCreator subtitle tooling.

Shallow embedding conventions: JavaScript strings are modelled as `List Char`
(one JS code unit per list element), JS numbers as `ℚ` (exact rational
arithmetic; numeric literals such as `2.55` become the rationals they denote),
`Math.floor` as `Int.floor`, `Math.round` as `round` (half-up), and the JS `%`
operator as truncated-remainder on rationals.  Filesystem paths are `String`
and the filesystem itself a `Finset String` of existing paths.
-/

namespace SubzCreator

/-- The JS whitespace class used by `String.trim` and the regex `\s`
(the characters that can actually occur in this code path). -/
def jsWs (c : Char) : Bool :=
  c = ' ' || c = '\t' || c = '\n' || c = '\r' || c = '\x0b' || c = '\x0c' || c = ' '

/-- JS `String.prototype.trim`: drop whitespace from both ends. -/
def jsTrim (l : List Char) : List Char :=
  ((l.dropWhile jsWs).reverse.dropWhile jsWs).reverse

/-- JS `haystack.lastIndexOf(pat)`: the greatest index at which `pat` occurs
as a contiguous sublist, `-1` when absent.  Scanning the candidate start
positions in ascending order and keeping the last hit yields the greatest. -/
def lastIndexOfSub (pat l : List Char) : ℤ :=
  (List.range (l.length + 1)).foldl
    (fun acc i => if pat.isPrefixOf (l.drop i) then (i : ℤ) else acc) (-1)

/-! ## Segment utilities (`segmentUtils`, src/unnamed/part_011) -/

/-- `RawSegment` from the segment utilities module. -/
structure RawSegment where
  id : ℤ
  startTime : ℚ
  endTime : ℚ
  text : List Char
  confidence : Option ℚ
deriving DecidableEq, Repr

/-- `SplitOptions`: all fields optional. -/
structure SplitOptions where
  maxCharsPerLine : Option ℕ := none
  maxLines : Option ℕ := none
  minSegmentDuration : Option ℚ := none
deriving DecidableEq, Repr

/-- The result of merging `SplitOptions` over `DEFAULT_OPTIONS`. -/
structure ResolvedSplitOptions where
  maxCharsPerLine : ℕ
  maxLines : ℕ
  minSegmentDuration : ℚ
deriving DecidableEq, Repr

/-- `DEFAULT_OPTIONS` from the source. -/
def DEFAULT_OPTIONS : ResolvedSplitOptions :=
  { maxCharsPerLine := 42, maxLines := 2, minSegmentDuration := 1 }

/-- The spread `{ ...DEFAULT_OPTIONS, ...options }`. -/
def resolveOptions (o : SplitOptions) : ResolvedSplitOptions :=
  { maxCharsPerLine := o.maxCharsPerLine.getD DEFAULT_OPTIONS.maxCharsPerLine
    maxLines := o.maxLines.getD DEFAULT_OPTIONS.maxLines
    minSegmentDuration := o.minSegmentDuration.getD DEFAULT_OPTIONS.minSegmentDuration }

/-- The sentence-end patterns `['. ', '! ', '? ', '.\n', '!\n', '?\n']`. -/
def sentenceEnds : List (List Char) :=
  [['.', ' '], ['!', ' '], ['?', ' '], ['.', '\n'], ['!', '\n'], ['?', '\n']]

/-- The clause-break patterns `[', ', '; ', ': ', ' - ', ' – ']`. -/
def clauseBreaks : List (List Char) :=
  [[',', ' '], [';', ' '], [':', ' '], [' ', '-', ' '], [' ', '–', ' ']]

/-- One pass of the pattern loops in `findBestSplitPoint`: for each pattern in
order, take the last occurrence and return `index + pattern.length - 1` as soon
as the occurrence lies beyond the threshold. -/
def scanBreakPats (searchRange : List Char) (pats : List (List Char)) (thresh : ℚ) : Option ℤ :=
  pats.findSome? (fun p =>
    let idx := lastIndexOfSub p searchRange
    if thresh < (idx : ℚ) then some (idx + p.length - 1) else none)

/-- `findBestSplitPoint(text, maxChars)`. -/
def findBestSplitPoint (text : List Char) (maxChars : ℕ) : ℤ :=
  let searchRange := text.take maxChars
  match scanBreakPats searchRange sentenceEnds ((maxChars : ℚ) * (3 / 10)) with
  | some r => r
  | none =>
    match scanBreakPats searchRange clauseBreaks ((maxChars : ℚ) * (4 / 10)) with
    | some r => r
    | none =>
      let lastSpace := lastIndexOfSub [' '] searchRange
      if ((maxChars : ℚ) * (5 / 10)) < (lastSpace : ℚ) then lastSpace
      else if 0 < lastSpace then lastSpace
      else -1

/-- The regex `/[,;:.!?]/` of `findBalancedSplitPoint`. -/
def isClausePunctChar (c : Char) : Bool :=
  c = ',' || c = ';' || c = ':' || c = '.' || c = '!' || c = '?'

/-- Comparison against a "best distance" that starts as `Infinity`
(`none` plays the role of `Infinity`). -/
def ltOptZ (a : ℤ) : Option ℤ → Bool
  | none => true
  | some b => a < b

/-- Loop body of the midpoint search of `findBalancedSplitPoint`; the state is
`(bestSplit, bestDistance)` with `bestDistance = none` for `Infinity`. -/
def fbspStep (text : List Char) (targetSplit : ℕ) (s : ℤ × Option ℤ) (i : ℕ) : ℤ × Option ℤ :=
  if text.get? i = some ' ' then
    let distance : ℤ := |(i : ℤ) - (targetSplit : ℤ)|
    let isPunct : Bool := decide (0 < i) &&
      (match text.get? (i - 1) with
       | some c => isClausePunctChar c
       | none => false)
    let adjustedDistance := if isPunct then distance - 5 else distance
    if ltOptZ adjustedDistance s.2 then ((i : ℤ), some adjustedDistance) else s
  else s

/-- `findBalancedSplitPoint(text, maxChars)`.  The JS loop runs `i` from
`max(0, targetSplit - searchRange)` to `min(text.length - 1, targetSplit + searchRange)`
inclusive; `searchRange ≤ targetSplit`, so natural subtraction matches. -/
def findBalancedSplitPoint (text : List Char) (maxChars : ℕ) : ℤ :=
  if text.length ≤ maxChars * 2 then
    let targetSplit := text.length / 2
    let searchRange := min 20 (text.length / 4)
    let lo := targetSplit - searchRange
    let hi := min (text.length - 1) (targetSplit + searchRange)
    let best := (List.range' lo (hi + 1 - lo)).foldl (fbspStep text targetSplit) (-1, none)
    if 0 < best.1 then best.1 else findBestSplitPoint text maxChars
  else findBestSplitPoint text maxChars

/-- The `while (remaining.length > maxChars)` loop of `splitTextIntoChunks`,
written with fuel (one unit per iteration).  For `maxChars ≥ 1` the effective
split index is at least 1, so fuel `remaining.length + 1` never runs out; the
fuel-exhausted `[]` branch corresponds to the diverging JS run at
`maxChars = 0`. -/
def splitChunksGo (maxChars : ℕ) : ℕ → List Char → List (List Char)
  | 0, _ => []
  | fuel + 1, remaining =>
    if maxChars < remaining.length then
      let si0 := findBalancedSplitPoint remaining maxChars
      let si : ℕ := if si0 ≤ 0 then maxChars else si0.toNat
      jsTrim (remaining.take si) :: splitChunksGo maxChars fuel (jsTrim (remaining.drop si))
    else if 0 < remaining.length then [remaining] else []

/-- `splitTextIntoChunks(text, maxChars)`. -/
def splitTextIntoChunks (text : List Char) (maxChars : ℕ) : List (List Char) :=
  let remaining := jsTrim text
  splitChunksGo maxChars (remaining.length + 1) remaining

/-- The timing loop of `splitSegment`: the final chunk's end is forced to the
original segment end, every other chunk ends at
`min(currentTime + max(minSegmentDuration, length / charsPerSecond), segment.endTime)`. -/
def assignTimes (segment : RawSegment) (minSegmentDuration charsPerSecond : ℚ) :
    List (List Char) → ℚ → ℕ → List RawSegment
  | [], _, _ => []
  | [chunk], currentTime, i =>
    [{ id := segment.id * 1000 + (i : ℤ), startTime := currentTime, endTime := segment.endTime,
       text := chunk, confidence := segment.confidence }]
  | chunk :: next :: rest, currentTime, i =>
    let chunkDuration := max minSegmentDuration ((chunk.length : ℚ) / charsPerSecond)
    let endTime := min (currentTime + chunkDuration) segment.endTime
    { id := segment.id * 1000 + (i : ℤ), startTime := currentTime, endTime := endTime,
      text := chunk, confidence := segment.confidence } ::
      assignTimes segment minSegmentDuration charsPerSecond (next :: rest) endTime (i + 1)

/-- `splitSegment(segment, options)`. -/
def splitSegment (segment : RawSegment) (options : SplitOptions) : List RawSegment :=
  let opts := resolveOptions options
  let maxChars := opts.maxCharsPerLine * opts.maxLines
  let text := jsTrim segment.text
  if text.length ≤ maxChars then
    [{ segment with text := text }]
  else
    let duration := segment.endTime - segment.startTime
    let charsPerSecond : ℚ := if 0 < duration then (text.length : ℚ) / duration else 15
    let chunks := splitTextIntoChunks text maxChars
    assignTimes segment opts.minSegmentDuration charsPerSecond chunks segment.startTime 0

/-- The regex `/[,;:.!?–-]/` of `formatSubtitleText` (a trailing `-` in a JS
character class is a literal hyphen). -/
def isBalancePunctChar (c : Char) : Bool :=
  c = ',' || c = ';' || c = ':' || c = '.' || c = '!' || c = '?' || c = '–' || c = '-'

/-- Loop body of the midpoint search of `formatSubtitleText`; the state is
`(bestSplit, bestScore)` with `bestScore = none` for `Infinity`. -/
def fmtStep (trimmed : List Char) (maxCharsPerLine : ℕ) (s : ℤ × Option ℤ) (i : ℕ) : ℤ × Option ℤ :=
  if trimmed.get? i = some ' ' then
    let line1Len := i
    let line2Len := trimmed.length - i - 1
    if maxCharsPerLine < line1Len ∨ maxCharsPerLine < line2Len then s
    else
      let imbalance : ℤ := |(line1Len : ℤ) - (line2Len : ℤ)|
      let punctuationBonus : ℤ :=
        match trimmed.get? (i - 1) with
        | some c => if isBalancePunctChar c then -10 else 0
        | none => 0
      let score := imbalance + punctuationBonus
      if ltOptZ score s.2 then ((i : ℤ), some score) else s
  else s

/-- `formatSubtitleText(text, maxCharsPerLine)`.  The JS loop runs `i` from
`max(10, targetSplit - searchRange)` to
`min(trimmed.length - 10, targetSplit + searchRange)` inclusive (never
executing when the upper bound is negative, which natural subtraction also
gives). -/
def formatSubtitleText (text : List Char) (maxCharsPerLine : ℕ) : List Char :=
  let trimmed := jsTrim text
  if trimmed.length ≤ maxCharsPerLine then trimmed
  else
    let targetSplit := trimmed.length / 2
    let searchRange := min 25 (trimmed.length / 3)
    let lo := max 10 (targetSplit - searchRange)
    let hi := min (trimmed.length - 10) (targetSplit + searchRange)
    let best := (List.range' lo (hi + 1 - lo)).foldl (fmtStep trimmed maxCharsPerLine) (-1, none)
    if 0 < best.1 then
      jsTrim (trimmed.take best.1.toNat) ++ '\n' :: jsTrim (trimmed.drop (best.1.toNat + 1))
    else trimmed

/-- `text.replace(/\n/g, ' ')`. -/
def replaceNewlines (l : List Char) : List Char :=
  l.map (fun c => if c = '\n' then ' ' else c)

/-- `text.replace(/\s+/g, ' ')`: every maximal run of whitespace becomes one
space. -/
def collapseWs : List Char → List Char
  | [] => []
  | [c] => if jsWs c then [' '] else [c]
  | c :: d :: cs =>
    if jsWs c && jsWs d then collapseWs (d :: cs)
    else (if jsWs c then ' ' else c) :: collapseWs (d :: cs)

/-- The cleaning pipeline of `balanceSegmentText`:
`text.replace(/\n/g, ' ').replace(/\s+/g, ' ').trim()`. -/
def cleanForBalance (l : List Char) : List Char :=
  jsTrim (collapseWs (replaceNewlines l))

/-- `balanceSegmentText(text, maxCharsPerLine)`. -/
def balanceSegmentText (text : List Char) (maxCharsPerLine : ℕ) : List Char :=
  formatSubtitleText (cleanForBalance text) maxCharsPerLine

/-! ## Subtitle export (src/lib/export/subtitles.ts) -/

/-- Decimal digit character. -/
def digitChar (n : ℕ) : Char := Char.ofNat (48 + n)

/-- Decimal digits of a natural number (fuel-based; `natReprL` supplies enough
fuel).  Models JS `Number.prototype.toString()` on a nonnegative integer. -/
def natReprAux : ℕ → ℕ → List Char
  | 0, _ => []
  | fuel + 1, n => if n < 10 then [digitChar n] else natReprAux fuel (n / 10) ++ [digitChar (n % 10)]

/-- Decimal representation of a natural number. -/
def natReprL (n : ℕ) : List Char := natReprAux (n + 1) n

/-- Decimal representation of an integer (JS `toString()`). -/
def intReprL (i : ℤ) : List Char :=
  if i < 0 then '-' :: natReprL i.natAbs else natReprL i.toNat

/-- JS `String.prototype.padStart(w, c)`. -/
def padStartL (l : List Char) (w : ℕ) (c : Char) : List Char :=
  List.replicate (w - l.length) c ++ l

/-- Truncation toward zero, the rounding of the JS `%` operator. -/
def jsTruncQ (q : ℚ) : ℤ := if 0 ≤ q then ⌊q⌋ else ⌈q⌉

/-- The JS `%` operator on numbers: remainder with the sign of the dividend. -/
def jsMod (a b : ℚ) : ℚ := a - b * (jsTruncQ (a / b) : ℚ)

/-- `formatSRTTime(seconds)`: render `HH:MM:SS,mmm`. -/
def formatSRTTime (seconds : ℚ) : List Char :=
  let h := ⌊seconds / 3600⌋
  let m := ⌊jsMod seconds 3600 / 60⌋
  let s := ⌊jsMod seconds 60⌋
  let ms := ⌊jsMod seconds 1 * 1000⌋
  padStartL (intReprL h) 2 '0' ++ ':' ::
    (padStartL (intReprL m) 2 '0' ++ ':' ::
      (padStartL (intReprL s) 2 '0' ++ ',' :: padStartL (intReprL ms) 3 '0'))

/-- Split a character list at every occurrence of a separator character. -/
def splitOnChar (c : Char) : List Char → List (List Char)
  | [] => [[]]
  | d :: l =>
    if d = c then [] :: splitOnChar c l
    else
      match splitOnChar c l with
      | [] => [[d]]
      | w :: rest => (d :: w) :: rest

/-- ASCII decimal digit test. -/
def isDigitChar (c : Char) : Bool := '0' ≤ c && c ≤ '9'

/-- Numeric value of a digit character. -/
def charVal (c : Char) : ℕ := c.toNat - 48

/-- Value of a decimal digit string. -/
def digitsVal (l : List Char) : ℕ := l.foldl (fun a c => a * 10 + charVal c) 0

/-- Parse a nonempty all-digit field. -/
def parseNatField (l : List Char) : Option ℕ :=
  if l ≠ [] ∧ l.all isDigitChar then some (digitsVal l) else none

/-- Parse an SRT timestamp `HH:MM:SS,mmm` back to seconds as
`hours*3600 + minutes*60 + seconds + milliseconds/1000` (the reading the
round-trip property specifies). -/
def parseSRTTime (l : List Char) : Option ℚ :=
  match splitOnChar ':' l with
  | [hf, mf, rest] =>
    match splitOnChar ',' rest with
    | [sf, msf] =>
      match parseNatField hf, parseNatField mf, parseNatField sf, parseNatField msf with
      | some h, some m, some s, some ms =>
        some ((h : ℚ) * 3600 + (m : ℚ) * 60 + (s : ℚ) + (ms : ℚ) / 1000)
      | _, _, _, _ => none
    | _ => none
  | _ => none

/-- Lower-case hexadecimal digit character (JS `toString(16)`). -/
def hexDigitChar (n : ℕ) : Char :=
  if n < 10 then Char.ofNat (48 + n) else Char.ofNat (87 + n)

/-- Hexadecimal digits of a natural number (fuel-based). -/
def natToHexAux : ℕ → ℕ → List Char
  | 0, _ => []
  | fuel + 1, n =>
    if n < 16 then [hexDigitChar n] else natToHexAux fuel (n / 16) ++ [hexDigitChar (n % 16)]

/-- Lower-case hexadecimal representation of a natural number. -/
def natToHex (n : ℕ) : List Char := natToHexAux (n + 1) n

/-- JS `Number.prototype.toString(16)` on an integer. -/
def intToHex (i : ℤ) : List Char :=
  if i < 0 then '-' :: natToHex i.natAbs else natToHex i.toNat

/-- JS `String.prototype.replace('#', '')`: remove the first occurrence. -/
def removeFirstChar (c : Char) : List Char → List Char
  | [] => []
  | d :: l => if d = c then l else d :: removeFirstChar c l

/-- `hexToASS(hexColor, opacity)`: `&H` + inverted alpha + BBGGRR. -/
def hexToASS (hexColor : List Char) (opacity : ℚ) : List Char :=
  let hex := (removeFirstChar '#' hexColor).map Char.toUpper
  let r := hex.take 2
  let g := (hex.drop 2).take 2
  let b := (hex.drop 4).take 2
  let alpha : ℤ := round ((100 - opacity) * (51 / 20 : ℚ))
  let alphaHex := (padStartL (intToHex alpha) 2 '0').map Char.toUpper
  '&' :: 'H' :: (alphaHex ++ b ++ g ++ r)

/-- Upper-case hexadecimal digit character (specification side). -/
def hexDigitUpper (n : ℕ) : Char :=
  if n < 10 then Char.ofNat (48 + n) else Char.ofNat (55 + n)

/-- Specification-side rendering of one byte as two upper-case hex digits. -/
def byteHexUpper (n : ℕ) : List Char := [hexDigitUpper (n / 16), hexDigitUpper (n % 16)]

/-- ASCII hex digit test (either case), for stating the 6-digit-color
hypothesis. -/
def isHexDigitChar (c : Char) : Bool :=
  ('0' ≤ c && c ≤ '9') || ('a' ≤ c && c ≤ 'f') || ('A' ≤ c && c ≤ 'F')

/-! ## FFmpeg service and upload pipeline
(src/unnamed/part_008 and src/app/api/upload/process/route.ts)

The asynchronous pipeline is embedded as a deterministic function of an
environment that fixes the outcome of every external effect (ffprobe/ffmpeg
invocations and storage uploads).  The function returns the ordered trace of
pipeline steps it performed, the final database record, and the list of paths
handed to the final cleanup loop. -/

/-- `TEMP_DIR` (default value of `FFMPEG_TEMP_DIR`). -/
def TEMP_DIR : String := "/tmp/subzcreator"

/-- JS `String.prototype.startsWith`. -/
def jsStartsWith (s pre : String) : Bool :=
  pre.data.isPrefixOf s.data

/-- `cleanupTempFile(filePath)` as a function on the set of existing paths:
delete only when the file exists and the path starts with `TEMP_DIR`; the
surrounding try/catch means the operation never throws. -/
def cleanupTempFile (fs : Finset String) (filePath : String) : Finset String :=
  if filePath ∈ fs ∧ jsStartsWith filePath TEMP_DIR then fs.erase filePath else fs

/-- "Inside the scratch directory": the path extends the scratch directory by
a path separator. -/
def insideScratchDir (p : String) : Prop :=
  jsStartsWith p (TEMP_DIR ++ "/") = true

/-- Result shape of `convertTo480p` / `extractAudioForTranscription`. -/
structure ConversionResult where
  path : String
  size : ℕ
  duration : ℚ
deriving DecidableEq, Repr

/-- Result shape of `extractThumbnail`. -/
structure ThumbnailResult where
  path : String
  size : ℕ
deriving DecidableEq, Repr

/-- The pipeline steps whose ordering the design fixes. -/
inductive Step where
  | probe
  | audioExtract
  | previewTranscode
  | thumbnailExtract
  | uploadAudio
  | uploadPreview
  | uploadThumbnail
  | persist
deriving DecidableEq, Repr

/-- Outcomes of the external effects: `isVideo` is the `isVideoFile` probe
result (that call never throws — its catch returns `false`); a `none`
conversion result means the corresponding ffmpeg step throws its fixed
message; upload results carry either the storage error message or the public
URL. -/
structure FfmpegEnv where
  isVideo : Bool
  audioResult : Option ConversionResult
  previewResult : Option ConversionResult
  thumbResult : Option ThumbnailResult
  uploadAudioResult : Except String String
  uploadPreviewResult : Except String String
  uploadThumbnailResult : Except String String

/-- Output shape of `processMediaFile`. -/
structure MediaOutput where
  isVideo : Bool
  previewPath : Option String
  thumbnailPath : Option String
  audioPath : String
  duration : ℚ
deriving DecidableEq, Repr

/-- `processMediaFile(inputPath)`: probe (`isVideoFile`), always extract
audio, then for video sources produce the 480p preview and try the thumbnail
(non-fatal).  Returns the step trace and the result or the first fatal
error message. -/
def processMediaFile (env : FfmpegEnv) : List Step × Except String MediaOutput :=
  match env.audioResult with
  | none => ([Step.probe, Step.audioExtract], .error "Failed to extract audio")
  | some audio =>
    match env.isVideo with
    | true =>
      match env.previewResult with
      | none =>
        ([Step.probe, Step.audioExtract, Step.previewTranscode],
         .error "Failed to convert to 480p")
      | some preview =>
        ([Step.probe, Step.audioExtract, Step.previewTranscode, Step.thumbnailExtract],
         .ok { isVideo := true, previewPath := some preview.path,
               thumbnailPath := env.thumbResult.map ThumbnailResult.path,
               audioPath := audio.path, duration := audio.duration })
    | false =>
      ([Step.probe, Step.audioExtract],
       .ok { isVideo := false, previewPath := none, thumbnailPath := none,
             audioPath := audio.path, duration := audio.duration })

/-- The slice of the `Files` record the background task writes. -/
structure JobRecord where
  status : String
  error : Option String
  previewUrl : Option String
  thumbnailUrl : Option String
  audioUrl : Option String
deriving DecidableEq, Repr

/-- Result of one background-processing run: ordered step trace, final
record state, and the list of temp paths handed to the final cleanup loop. -/
structure JobOutcome where
  trace : List Step
  record : JobRecord
  cleaned : List String
deriving Repr

/-- The thumbnail upload of `processInBackground`: runs only for a video
source with a thumbnail path. -/
def thumbUploadPhase (routeIsVideo : Bool) (env : FfmpegEnv) (result : MediaOutput)
    (audioUrl : String) (previewUrl : Option String) (steps : List Step) :
    List Step × Except String (String × Option String × Option String) :=
  match routeIsVideo, result.thumbnailPath with
  | true, some _ =>
    match env.uploadThumbnailResult with
    | .error msg => (steps ++ [Step.uploadThumbnail], .error msg)
    | .ok thumbUrl => (steps ++ [Step.uploadThumbnail], .ok (audioUrl, previewUrl, some thumbUrl))
  | _, _ => (steps, .ok (audioUrl, previewUrl, none))

/-- The upload sequence of `processInBackground`: audio first, then (video)
preview, then (video, when present) thumbnail; the first storage failure
aborts the rest. -/
def uploadPhase (routeIsVideo : Bool) (env : FfmpegEnv) (result : MediaOutput) :
    List Step × Except String (String × Option String × Option String) :=
  match env.uploadAudioResult with
  | .error msg => ([Step.uploadAudio], .error msg)
  | .ok audioUrl =>
    match routeIsVideo, result.previewPath with
    | true, some _ =>
      match env.uploadPreviewResult with
      | .error msg => ([Step.uploadAudio, Step.uploadPreview], .error msg)
      | .ok previewUrl =>
        thumbUploadPhase routeIsVideo env result audioUrl (some previewUrl)
          [Step.uploadAudio, Step.uploadPreview]
    | _, _ => thumbUploadPhase routeIsVideo env result audioUrl none [Step.uploadAudio]

/-- The tail of `processInBackground` after the ffmpeg phase: perform the
uploads, then persist `ready`, or write `error` with the failing upload's
message. -/
def persistPhase (steps : List Step) (tempFiles : List String)
    (up : List Step × Except String (String × Option String × Option String)) : JobOutcome :=
  match up.2 with
  | .error msg =>
    { trace := steps ++ up.1,
      record := { status := "error", error := some msg, previewUrl := none,
                  thumbnailUrl := none, audioUrl := none },
      cleaned := tempFiles }
  | .ok (audioUrl, previewUrl, thumbnailUrl) =>
    { trace := steps ++ up.1 ++ [Step.persist],
      record := { status := "ready", error := none, previewUrl := previewUrl,
                  thumbnailUrl := thumbnailUrl, audioUrl := some audioUrl },
      cleaned := tempFiles }

/-- `processInBackground`: run `processMediaFile`, record the derived temp
paths, upload, persist `ready` (or write `error` with the failing step's
message), and finally hand every recorded temp file to the cleanup loop. -/
def processInBackground (routeIsVideo : Bool) (env : FfmpegEnv)
    (tempFiles0 : List String) : JobOutcome :=
  match processMediaFile env with
  | (steps, .error msg) =>
    { trace := steps,
      record := { status := "error", error := some msg, previewUrl := none,
                  thumbnailUrl := none, audioUrl := none },
      cleaned := tempFiles0 }
  | (steps, .ok result) =>
    persistPhase steps
      (tempFiles0
        ++ (match result.previewPath with | some p => [p] | none => [])
        ++ (match result.thumbnailPath with | some p => [p] | none => [])
        ++ [result.audioPath])
      (uploadPhase routeIsVideo env result)

/-- The fixed sequential order the pipeline steps follow within one job. -/
def canonicalStepOrder : List Step :=
  [Step.probe, Step.audioExtract, Step.previewTranscode, Step.thumbnailExtract,
   Step.uploadAudio, Step.uploadPreview, Step.uploadThumbnail, Step.persist]

/-- Canonical form of the strings produced by `cleanForBalance`: every
whitespace character is a plain space, no two whitespace characters are
adjacent, and neither end is whitespace. -/
structure CleanedL (l : List Char) : Prop where
  wsSpace : ∀ c ∈ l, jsWs c = true → c = ' '
  noRun : l.Chain' (fun a b => ¬(jsWs a = true ∧ jsWs b = true))
  headNoWs : ∀ c, l.head? = some c → jsWs c = false
  lastNoWs : ∀ c, l.getLast? = some c → jsWs c = false

/-! ## Generic helpers -/

theorem foldl_inv {σ α : Type} (f : σ → α → σ) (P : σ → Prop) :
    ∀ (l : List α) (init : σ), P init → (∀ s a, a ∈ l → P s → P (f s a)) →
      P (l.foldl f init) := by
  intro l
  induction l with
  | nil => intro init h _; exact h
  | cons a l ih =>
    intro init h hstep
    exact ih (f init a) (hstep init a (List.mem_cons_self a l) h)
      (fun s b hb hs => hstep s b (List.mem_cons_of_mem a hb) hs)

theorem jsTrim_nil : jsTrim [] = [] := rfl

theorem mem_jsTrim {c : Char} {l : List Char} (h : c ∈ jsTrim l) : c ∈ l := by
  unfold jsTrim at h
  rw [List.mem_reverse] at h
  have h2 := (List.dropWhile_sublist jsWs).mem h
  rw [List.mem_reverse] at h2
  exact (List.dropWhile_sublist jsWs).mem h2

theorem jsTrim_length_le (l : List Char) : (jsTrim l).length ≤ l.length := by
  unfold jsTrim
  rw [List.length_reverse]
  calc ((l.dropWhile jsWs).reverse.dropWhile jsWs).length
      ≤ (l.dropWhile jsWs).reverse.length := (List.dropWhile_sublist jsWs).length_le
    _ = (l.dropWhile jsWs).length := List.length_reverse _
    _ ≤ l.length := (List.dropWhile_sublist jsWs).length_le

theorem head?_dropWhile_false {p : Char → Bool} {l : List Char} {c : Char}
    (h : (l.dropWhile p).head? = some c) : p c = false := by
  have := List.head?_dropWhile_not p l
  rw [h] at this
  exact this

theorem dropWhile_eq_self_of_head {p : Char → Bool} {l : List Char}
    (h : ∀ c, l.head? = some c → p c = false) : l.dropWhile p = l := by
  cases l with
  | nil => rfl
  | cons c t =>
    have hc := h c rfl
    simp [List.dropWhile_cons, hc]

theorem jsTrim_eq_self {l : List Char}
    (hh : ∀ c, l.head? = some c → jsWs c = false)
    (hl : ∀ c, l.getLast? = some c → jsWs c = false) : jsTrim l = l := by
  unfold jsTrim
  rw [dropWhile_eq_self_of_head hh]
  rw [dropWhile_eq_self_of_head (by
    intro c hc
    rw [List.head?_reverse] at hc
    exact hl c hc)]
  exact List.reverse_reverse l

theorem jsTrim_last_not_ws {l : List Char} {c : Char}
    (h : (jsTrim l).getLast? = some c) : jsWs c = false := by
  unfold jsTrim at h
  rw [List.getLast?_reverse] at h
  exact head?_dropWhile_false h

theorem jsTrim_head_not_ws {l : List Char} {c : Char}
    (h : (jsTrim l).head? = some c) : jsWs c = false := by
  unfold jsTrim at h
  rw [List.head?_reverse] at h
  obtain ⟨pre, hpre⟩ := List.dropWhile_suffix (l := (l.dropWhile jsWs).reverse) jsWs
  have hne : (l.dropWhile jsWs).reverse.dropWhile jsWs ≠ [] := by
    intro hnil
    rw [hnil] at h
    exact Option.noConfusion h
  have h2 : ((l.dropWhile jsWs).reverse).getLast? = some c := by
    rw [← hpre, List.getLast?_append_of_ne_nil _ hne]
    exact h
  rw [List.getLast?_reverse] at h2
  exact head?_dropWhile_false h2

theorem jsTrim_idem (l : List Char) : jsTrim (jsTrim l) = jsTrim l :=
  jsTrim_eq_self (fun _ hc => jsTrim_head_not_ws hc) (fun _ hc => jsTrim_last_not_ws hc)

/-! ## C7: temp-file release -/

/-- C7 (amended): `cleanupTempFile` is idempotent, silently no-ops when the
file is already removed, and leaves the filesystem unchanged whenever the
given path does not start with the scratch-directory string
(paths that merely share the string prefix, such as a sibling directory
`/tmp/subzcreator-evil`, are not protected). -/
theorem cleanupTempFile_safety :
    (∀ (fs : Finset String) (p : String),
      cleanupTempFile (cleanupTempFile fs p) p = cleanupTempFile fs p) ∧
    (∀ (fs : Finset String) (p : String), p ∉ fs → cleanupTempFile fs p = fs) ∧
    (∀ (fs : Finset String) (p : String), ¬ jsStartsWith p TEMP_DIR = true →
      cleanupTempFile fs p = fs) := by
  refine ⟨?_, ?_, ?_⟩
  · intro fs p
    unfold cleanupTempFile
    by_cases h : p ∈ fs ∧ jsStartsWith p TEMP_DIR = true
    · rw [if_pos h, if_neg]
      intro h2
      exact (Finset.not_mem_erase p fs) h2.1
    · rw [if_neg h, if_neg h]
  · intro fs p hp
    unfold cleanupTempFile
    rw [if_neg (fun h => hp h.1)]
  · intro fs p hpre
    unfold cleanupTempFile
    rw [if_neg (fun h => hpre h.2)]

/-- Witness for C7: a path outside the temp prefix is left alone. -/
theorem cleanupTempFile_safety_witness :
    ¬ jsStartsWith "/etc/passwd" TEMP_DIR = true ∧
      cleanupTempFile {"/tmp/subzcreator/a.mp3"} "/etc/passwd" =
        {"/tmp/subzcreator/a.mp3"} :=
  ⟨by decide, cleanupTempFile_safety.2.2 {"/tmp/subzcreator/a.mp3"} "/etc/passwd" (by decide)⟩

/-- C7 counterexample: `/tmp/subzcreator-evil/x` lies outside the scratch
directory `/tmp/subzcreator`, yet `cleanupTempFile` deletes it, because the
guard is a plain string-prefix test. -/
theorem cleanupTempFile_deletes_outside_scratch :
    ¬ insideScratchDir "/tmp/subzcreator-evil/x" ∧
      cleanupTempFile {"/tmp/subzcreator-evil/x"} "/tmp/subzcreator-evil/x" ≠
        {"/tmp/subzcreator-evil/x"} := by
  constructor
  · intro h
    unfold insideScratchDir at h
    exact absurd h (by decide)
  · intro h
    have : ("/tmp/subzcreator-evil/x" : String) ∈
        cleanupTempFile {"/tmp/subzcreator-evil/x"} "/tmp/subzcreator-evil/x" := by
      rw [h]; exact Finset.mem_singleton_self _
    revert this
    decide

/-! ## C3: short segments -/

/-- C3 (amended): when the trimmed text fits within
`maxCharsPerLine × maxLines`, `splitSegment` returns exactly one segment with
the same id, times and confidence, whose text is the trimmed input text
(hence equal to the input segment exactly when its text carries no
surrounding whitespace). -/
theorem splitSegment_short (seg : RawSegment) (opts : SplitOptions)
    (h : (jsTrim seg.text).length ≤
      (resolveOptions opts).maxCharsPerLine * (resolveOptions opts).maxLines) :
    splitSegment seg opts = [{ seg with text := jsTrim seg.text }] := by
  unfold splitSegment
  rw [if_pos h]

/-- Witness for C3. -/
theorem splitSegment_short_witness :
    (jsTrim ("hello world").toList).length ≤
      (resolveOptions {}).maxCharsPerLine * (resolveOptions {}).maxLines ∧
    splitSegment ⟨7, 0, 2, ("hello world").toList, some 1⟩ {} =
      [{ (⟨7, 0, 2, ("hello world").toList, some 1⟩ : RawSegment) with
          text := jsTrim ("hello world").toList }] :=
  ⟨by decide, splitSegment_short ⟨7, 0, 2, ("hello world").toList, some 1⟩ {} (by decide)⟩

/-- C3 counterexample: a short segment whose text carries surrounding
whitespace is returned trimmed, not unchanged: `" hi "` (length 4 ≤ 84)
becomes `"hi"`. -/
theorem splitSegment_short_not_unchanged :
    splitSegment ⟨1, 0, 4, (" hi ").toList, none⟩ {} ≠
      [⟨1, 0, 4, (" hi ").toList, none⟩] ∧
    splitSegment ⟨1, 0, 4, (" hi ").toList, none⟩ {} =
      [⟨1, 0, 4, ("hi").toList, none⟩] := by
  constructor
  · decide
  · decide

/-! ## C6: hex color to ASS -/

set_option maxRecDepth 8000 in
theorem padHex_byte : ∀ a : ℕ, a < 256 →
    (padStartL (natToHex a) 2 '0').map Char.toUpper = byteHexUpper a := by
  decide

theorem round_mem_byte {q : ℚ} (h0 : 0 ≤ q) (h1 : q ≤ 255) :
    0 ≤ round q ∧ round q ≤ 255 := by
  rw [round_eq]
  constructor
  · exact Int.floor_nonneg.mpr (by linarith)
  · have h2 : ⌊q + 1 / 2⌋ < 256 := Int.floor_lt.mpr (by push_cast; linarith)
    omega

theorem hexToASS_eq (c0 c1 c2 c3 c4 c5 : Char) (opacity : ℚ)
    (h0 : 0 ≤ opacity) (h1 : opacity ≤ 100) :
    hexToASS ('#' :: [c0, c1, c2, c3, c4, c5]) opacity =
      '&' :: 'H' :: (byteHexUpper (round ((100 - opacity) * (51 / 20 : ℚ))).toNat ++
        [c4.toUpper, c5.toUpper, c2.toUpper, c3.toUpper, c0.toUpper, c1.toUpper]) := by
  have hb : 0 ≤ round ((100 - opacity) * (51 / 20 : ℚ)) ∧
      round ((100 - opacity) * (51 / 20 : ℚ)) ≤ 255 :=
    round_mem_byte (by nlinarith) (by nlinarith)
  unfold hexToASS
  simp only [removeFirstChar, if_pos rfl, List.map_cons, List.map_nil]
  rw [intToHex, if_neg (not_lt.mpr hb.1)]
  rw [padHex_byte _ (by omega)]
  simp [List.take, List.drop]

/-- C6: `hexToASS` is the pure inverted-alpha encoding: for any 6-digit hex
color `#RRGGBB` and opacity in `[0,100]`, the result is `&H`, then the alpha
byte `round((100 - opacity) * 2.55)` as two upper-case hex digits, then the
BB, GG, RR byte pairs; opacity 100 yields alpha `00`, opacity 0 yields `FF`,
and `#FFFFFF` at opacity 80 always converts to `&H33FFFFFF`. -/
theorem hexToASS_spec (c0 c1 c2 c3 c4 c5 : Char) (opacity : ℚ)
    (hhex : ∀ c ∈ [c0, c1, c2, c3, c4, c5], isHexDigitChar c = true)
    (h0 : 0 ≤ opacity) (h1 : opacity ≤ 100) :
    hexToASS ('#' :: [c0, c1, c2, c3, c4, c5]) opacity =
      '&' :: 'H' :: (byteHexUpper (round ((100 - opacity) * (51 / 20 : ℚ))).toNat ++
        [c4.toUpper, c5.toUpper, c2.toUpper, c3.toUpper, c0.toUpper, c1.toUpper]) ∧
    hexToASS ('#' :: [c0, c1, c2, c3, c4, c5]) 100 =
      '&' :: 'H' :: ('0' :: '0' ::
        [c4.toUpper, c5.toUpper, c2.toUpper, c3.toUpper, c0.toUpper, c1.toUpper]) ∧
    hexToASS ('#' :: [c0, c1, c2, c3, c4, c5]) 0 =
      '&' :: 'H' :: ('F' :: 'F' ::
        [c4.toUpper, c5.toUpper, c2.toUpper, c3.toUpper, c0.toUpper, c1.toUpper]) ∧
    hexToASS ("#FFFFFF").toList 80 = ("&H33FFFFFF").toList := by
  refine ⟨hexToASS_eq c0 c1 c2 c3 c4 c5 opacity h0 h1, ?_, ?_, ?_⟩
  · have hr : round (((100 : ℚ) - 100) * (51 / 20 : ℚ)) = 0 := by norm_num [round_eq]
    rw [hexToASS_eq c0 c1 c2 c3 c4 c5 100 (by norm_num) (by norm_num), hr]
    rw [show (Int.toNat 0) = 0 from rfl, show byteHexUpper 0 = ['0', '0'] from by decide]
    rfl
  · have hr : round (((100 : ℚ) - 0) * (51 / 20 : ℚ)) = 255 := by norm_num [round_eq]
    rw [hexToASS_eq c0 c1 c2 c3 c4 c5 0 (by norm_num) (by norm_num), hr]
    rw [show ((255 : ℤ)).toNat = 255 from rfl, show byteHexUpper 255 = ['F', 'F'] from by decide]
    rfl
  · have hr : round (((100 : ℚ) - 80) * (51 / 20 : ℚ)) = 51 := by norm_num [round_eq]
    show hexToASS ('#' :: [('F' : Char), 'F', 'F', 'F', 'F', 'F']) 80 =
      ('&' :: 'H' :: '3' :: '3' :: 'F' :: 'F' :: 'F' :: 'F' :: 'F' :: 'F' :: [])
    rw [hexToASS_eq 'F' 'F' 'F' 'F' 'F' 'F' 80 (by norm_num) (by norm_num), hr]
    decide

/-- Witness for C6 at `#FFFFFF`, opacity 80. -/
theorem hexToASS_spec_witness :
    (∀ c ∈ [('F' : Char), 'F', 'F', 'F', 'F', 'F'], isHexDigitChar c = true) ∧
    (0 : ℚ) ≤ 80 ∧ (80 : ℚ) ≤ 100 ∧
    hexToASS ('#' :: [('F' : Char), 'F', 'F', 'F', 'F', 'F']) 80 =
      '&' :: 'H' :: (byteHexUpper (round ((100 - (80 : ℚ)) * (51 / 20 : ℚ))).toNat ++
        [('F' : Char).toUpper, ('F' : Char).toUpper, ('F' : Char).toUpper,
         ('F' : Char).toUpper, ('F' : Char).toUpper, ('F' : Char).toUpper]) :=
  ⟨by decide, by norm_num, by norm_num,
    (hexToASS_spec 'F' 'F' 'F' 'F' 'F' 'F' 80 (by decide) (by norm_num) (by norm_num)).1⟩

/-! ## C5: SRT timestamp round trip -/

theorem digitChar_facts : ∀ n : ℕ, n < 10 →
    charVal (digitChar n) = n ∧ isDigitChar (digitChar n) = true := by
  decide

theorem digitsVal_append_singleton (l : List Char) (c : Char) :
    digitsVal (l ++ [c]) = digitsVal l * 10 + charVal c := by
  simp [digitsVal, List.foldl_append]

theorem natReprAux_spec : ∀ fuel n, n < fuel →
    digitsVal (natReprAux fuel n) = n ∧ natReprAux fuel n ≠ [] ∧
      (∀ c ∈ natReprAux fuel n, isDigitChar c = true) := by
  intro fuel
  induction fuel with
  | zero => intro n h; omega
  | succ fuel ih =>
    intro n h
    have hdef : natReprAux (fuel + 1) n = if n < 10 then [digitChar n] else
        natReprAux fuel (n / 10) ++ [digitChar (n % 10)] := rfl
    rw [hdef]
    by_cases h10 : n < 10
    · rw [if_pos h10]
      have hd := digitChar_facts n h10
      refine ⟨?_, by simp, ?_⟩
      · show 0 * 10 + charVal (digitChar n) = n
        omega
      · intro c hc
        rw [List.mem_singleton] at hc
        subst hc
        exact hd.2
    · rw [if_neg h10]
      have hpos : 0 < n := by omega
      have hlt : n / 10 < n := Nat.div_lt_self hpos (by norm_num)
      have hdiv : n / 10 < fuel := by omega
      obtain ⟨ih1, _, ih3⟩ := ih (n / 10) hdiv
      have hmod := digitChar_facts (n % 10) (Nat.mod_lt _ (by norm_num))
      refine ⟨?_, by simp, ?_⟩
      · rw [digitsVal_append_singleton, ih1, hmod.1]
        omega
      · intro c hc
        rw [List.mem_append] at hc
        rcases hc with hc | hc
        · exact ih3 c hc
        · rw [List.mem_singleton] at hc
          subst hc
          exact hmod.2

theorem digitsVal_replicate_zero (k : ℕ) (l : List Char) :
    digitsVal (List.replicate k '0' ++ l) = digitsVal l := by
  induction k with
  | zero => rfl
  | succ k ih =>
    rw [List.replicate_succ, List.cons_append]
    show digitsVal (List.replicate k '0' ++ l) = digitsVal l
    exact ih

theorem padded_digits (n w : ℕ) :
    ∀ c ∈ padStartL (natReprL n) w '0', isDigitChar c = true := by
  intro c hc
  unfold padStartL at hc
  rw [List.mem_append] at hc
  rcases hc with hc | hc
  · rw [List.eq_of_mem_replicate hc]
    decide
  · exact (natReprAux_spec (n + 1) n (Nat.lt_succ_self n)).2.2 c hc

theorem parseNatField_pad (n w : ℕ) :
    parseNatField (padStartL (natReprL n) w '0') = some n := by
  obtain ⟨h1, h2, h3⟩ := natReprAux_spec (n + 1) n (Nat.lt_succ_self n)
  have hne : padStartL (natReprL n) w '0' ≠ [] := by
    intro hnil
    unfold padStartL at hnil
    rw [List.append_eq_nil] at hnil
    exact h2 hnil.2
  have hall : (padStartL (natReprL n) w '0').all isDigitChar = true :=
    List.all_eq_true.mpr (padded_digits n w)
  unfold parseNatField
  rw [if_pos ⟨hne, hall⟩]
  show some (digitsVal (List.replicate (w - (natReprL n).length) '0' ++ natReprL n)) = some n
  rw [digitsVal_replicate_zero]
  exact congrArg some h1

theorem colon_not_mem_pad (n w : ℕ) : ':' ∉ padStartL (natReprL n) w '0' := by
  intro hc
  exact absurd (padded_digits n w ':' hc) (by decide)

theorem comma_not_mem_pad (n w : ℕ) : ',' ∉ padStartL (natReprL n) w '0' := by
  intro hc
  exact absurd (padded_digits n w ',' hc) (by decide)

theorem splitOnChar_cons (c d : Char) (t : List Char) :
    splitOnChar c (d :: t) = if d = c then [] :: splitOnChar c t
      else match splitOnChar c t with
           | [] => [[d]]
           | w :: rest => (d :: w) :: rest := rfl

theorem splitOnChar_not_mem {c : Char} : ∀ {l : List Char}, c ∉ l → splitOnChar c l = [l] := by
  intro l
  induction l with
  | nil => intro _; rfl
  | cons d t ih =>
    intro hmem
    have hd : ¬ d = c := fun h => hmem (h ▸ List.mem_cons_self d t)
    have ht : c ∉ t := fun h => hmem (List.mem_cons_of_mem d h)
    rw [splitOnChar_cons, if_neg hd, ih ht]

theorem splitOnChar_append {c : Char} :
    ∀ {a : List Char}, c ∉ a → ∀ b, splitOnChar c (a ++ c :: b) = a :: splitOnChar c b := by
  intro a
  induction a with
  | nil =>
    intro _ b
    rw [List.nil_append, splitOnChar_cons, if_pos rfl]
  | cons d t ih =>
    intro hmem b
    have hd : ¬ d = c := fun h => hmem (h ▸ List.mem_cons_self d t)
    have ht : c ∉ t := fun h => hmem (List.mem_cons_of_mem d h)
    rw [List.cons_append, splitOnChar_cons, if_neg hd, ih ht b]

theorem jsMod_nonneg_eq (t b : ℚ) (ht : 0 ≤ t) (hb : 0 < b) :
    jsMod t b = t - b * (⌊t / b⌋ : ℚ) := by
  unfold jsMod jsTruncQ
  rw [if_pos (div_nonneg ht hb.le)]

theorem srt_time_components (t : ℚ) (ht : 0 ≤ t) :
    0 ≤ ⌊t / 3600⌋ ∧ 0 ≤ ⌊jsMod t 3600 / 60⌋ ∧ 0 ≤ ⌊jsMod t 60⌋ ∧ 0 ≤ ⌊jsMod t 1 * 1000⌋ ∧
    (⌊t / 3600⌋ : ℚ) * 3600 + (⌊jsMod t 3600 / 60⌋ : ℚ) * 60 + (⌊jsMod t 60⌋ : ℚ) = (⌊t⌋ : ℚ) ∧
    (⌊t⌋ : ℚ) + (⌊jsMod t 1 * 1000⌋ : ℚ) / 1000 ≤ t ∧
    t < (⌊t⌋ : ℚ) + ((⌊jsMod t 1 * 1000⌋ : ℚ) + 1) / 1000 := by
  have e3600 := jsMod_nonneg_eq t 3600 ht (by norm_num)
  have e60 := jsMod_nonneg_eq t 60 ht (by norm_num)
  have e1 := jsMod_nonneg_eq t 1 ht (by norm_num)
  have hm : ⌊jsMod t 3600 / 60⌋ = ⌊t / 60⌋ - 60 * ⌊t / 3600⌋ := by
    rw [e3600]
    rw [show (t - 3600 * (⌊t / 3600⌋ : ℚ)) / 60 = t / 60 - ((60 * ⌊t / 3600⌋ : ℤ) : ℚ) by
      push_cast; ring]
    exact Int.floor_sub_int _ _
  have hs : ⌊jsMod t 60⌋ = ⌊t⌋ - 60 * ⌊t / 60⌋ := by
    rw [e60]
    rw [show t - 60 * (⌊t / 60⌋ : ℚ) = t - ((60 * ⌊t / 60⌋ : ℤ) : ℚ) by push_cast; ring]
    exact Int.floor_sub_int _ _
  have hms : jsMod t 1 = t - (⌊t⌋ : ℚ) := by
    rw [e1, div_one]
    ring
  have hfr1 : (⌊jsMod t 1 * 1000⌋ : ℚ) ≤ (t - (⌊t⌋ : ℚ)) * 1000 := by
    rw [← hms]; exact Int.floor_le _
  have hfr2 : (t - (⌊t⌋ : ℚ)) * 1000 < (⌊jsMod t 1 * 1000⌋ : ℚ) + 1 := by
    rw [← hms]; exact Int.lt_floor_add_one _
  have hhq : (⌊t / 3600⌋ : ℚ) ≤ t / 3600 := Int.floor_le _
  have hm0q : (⌊t / 60⌋ : ℚ) ≤ t / 60 := Int.floor_le _
  have hNq : (⌊t⌋ : ℚ) ≤ t := Int.floor_le _
  have h60m : (60 * ⌊t / 3600⌋ : ℤ) ≤ ⌊t / 60⌋ := by
    rw [Int.le_floor]
    push_cast
    linarith
  have h60s : (60 * ⌊t / 60⌋ : ℤ) ≤ ⌊t⌋ := by
    rw [Int.le_floor]
    push_cast
    linarith
  refine ⟨Int.floor_nonneg.mpr (by positivity), ?_, ?_, ?_, ?_, ?_, ?_⟩
  · rw [hm]; omega
  · rw [hs]; omega
  · refine Int.floor_nonneg.mpr ?_
    rw [hms]
    nlinarith
  · rw [hm, hs]
    push_cast
    ring
  · linarith
  · linarith

/-- C5: for every nonnegative time `t`, parsing the `HH:MM:SS,mmm` timestamp
produced by the SRT time formatter back to seconds as
`hours*3600 + minutes*60 + seconds + milliseconds/1000` yields `t'` with
`|t - t'| ≤ 1` millisecond, so SRT export round-trips segment times within
1 ms. -/
theorem formatSRTTime_roundtrip (t : ℚ) (ht : 0 ≤ t) :
    ∃ t', parseSRTTime (formatSRTTime t) = some t' ∧ |t - t'| ≤ 1 / 1000 := by
  obtain ⟨hh0, hm0, hs0, hms0, hsum, hlo, hhi⟩ := srt_time_components t ht
  have hcast : ∀ k : ℤ, 0 ≤ k → intReprL k = natReprL k.toNat := by
    intro k hk
    unfold intReprL
    rw [if_neg (not_lt.mpr hk)]
  have hfmt : formatSRTTime t =
      padStartL (natReprL (⌊t / 3600⌋).toNat) 2 '0' ++ ':' ::
        (padStartL (natReprL (⌊jsMod t 3600 / 60⌋).toNat) 2 '0' ++ ':' ::
          (padStartL (natReprL (⌊jsMod t 60⌋).toNat) 2 '0' ++ ',' ::
            padStartL (natReprL (⌊jsMod t 1 * 1000⌋).toNat) 3 '0')) := by
    simp only [formatSRTTime]
    rw [hcast _ hh0, hcast _ hm0, hcast _ hs0, hcast _ hms0]
  have hparse : parseSRTTime (formatSRTTime t) =
      some (((⌊t / 3600⌋).toNat : ℚ) * 3600 + ((⌊jsMod t 3600 / 60⌋).toNat : ℚ) * 60 +
        ((⌊jsMod t 60⌋).toNat : ℚ) + ((⌊jsMod t 1 * 1000⌋).toNat : ℚ) / 1000) := by
    rw [hfmt]
    unfold parseSRTTime
    rw [splitOnChar_append (colon_not_mem_pad _ _),
      splitOnChar_append (colon_not_mem_pad _ _),
      splitOnChar_not_mem (by
        intro hc
        rw [List.mem_append] at hc
        rcases hc with hc | hc
        · exact colon_not_mem_pad _ _ hc
        · rw [List.mem_cons] at hc
          rcases hc with hc | hc
          · exact absurd hc (by decide)
          · exact colon_not_mem_pad _ _ hc)]
    dsimp only
    rw [splitOnChar_append (comma_not_mem_pad _ _),
      splitOnChar_not_mem (comma_not_mem_pad _ _)]
    dsimp only
    rw [parseNatField_pad, parseNatField_pad, parseNatField_pad, parseNatField_pad]
  refine ⟨_, hparse, ?_⟩
  have c1 : ((⌊t / 3600⌋.toNat : ℕ) : ℚ) = ((⌊t / 3600⌋ : ℤ) : ℚ) := by
    exact_mod_cast Int.toNat_of_nonneg hh0
  have c2 : ((⌊jsMod t 3600 / 60⌋.toNat : ℕ) : ℚ) = ((⌊jsMod t 3600 / 60⌋ : ℤ) : ℚ) := by
    exact_mod_cast Int.toNat_of_nonneg hm0
  have c3 : ((⌊jsMod t 60⌋.toNat : ℕ) : ℚ) = ((⌊jsMod t 60⌋ : ℤ) : ℚ) := by
    exact_mod_cast Int.toNat_of_nonneg hs0
  have c4 : ((⌊jsMod t 1 * 1000⌋.toNat : ℕ) : ℚ) = ((⌊jsMod t 1 * 1000⌋ : ℤ) : ℚ) := by
    exact_mod_cast Int.toNat_of_nonneg hms0
  rw [c1, c2, c3, c4]
  rw [abs_le]
  constructor
  · nlinarith
  · nlinarith

/-- Witness for C5 at `t = 7205.5` (formatted `02:00:05,500`). -/
theorem formatSRTTime_roundtrip_witness :
    (0 : ℚ) ≤ 14411 / 2 ∧
      ∃ t', parseSRTTime (formatSRTTime (14411 / 2)) = some t' ∧
        |(14411 / 2 : ℚ) - t'| ≤ 1 / 1000 :=
  ⟨by norm_num, formatSRTTime_roundtrip (14411 / 2) (by norm_num)⟩

/-! ## C1: splitSegment timing -/

theorem getLast?_cons_of_ne_nil {α : Type} (a : α) {l : List α} (h : l ≠ []) :
    (a :: l).getLast? = l.getLast? := by
  obtain ⟨y, ys, rfl⟩ := List.exists_cons_of_ne_nil h
  rfl

theorem assignTimes_ne_nil (seg : RawSegment) (md cps : ℚ) (c : List Char)
    (cs : List (List Char)) (t : ℚ) (i : ℕ) :
    assignTimes seg md cps (c :: cs) t i ≠ [] := by
  cases cs <;> simp [assignTimes]

theorem assignTimes_step (seg : RawSegment) (md cps : ℚ) (c c2 : List Char)
    (rest : List (List Char)) (t : ℚ) (i : ℕ) :
    assignTimes seg md cps (c :: c2 :: rest) t i =
      { id := seg.id * 1000 + (i : ℤ), startTime := t,
        endTime := min (t + max md ((c.length : ℚ) / cps)) seg.endTime,
        text := c, confidence := seg.confidence } ::
        assignTimes seg md cps (c2 :: rest)
          (min (t + max md ((c.length : ℚ) / cps)) seg.endTime) (i + 1) := rfl

theorem assignTimes_head_start (seg : RawSegment) (md cps : ℚ) (c : List Char)
    (cs : List (List Char)) (t : ℚ) (i : ℕ) :
    (assignTimes seg md cps (c :: cs) t i).head?.map RawSegment.startTime = some t := by
  cases cs <;> rfl

theorem assignTimes_last_end (seg : RawSegment) (md cps : ℚ) :
    ∀ (cs : List (List Char)) (c : List Char) (t : ℚ) (i : ℕ),
    (assignTimes seg md cps (c :: cs) t i).getLast?.map RawSegment.endTime =
      some seg.endTime := by
  intro cs
  induction cs with
  | nil => intro c t i; rfl
  | cons c2 rest ih =>
    intro c t i
    rw [assignTimes_step,
      getLast?_cons_of_ne_nil _ (assignTimes_ne_nil seg md cps c2 rest _ (i + 1))]
    exact ih c2 _ (i + 1)

theorem assignTimes_chain (seg : RawSegment) (md cps : ℚ) :
    ∀ (cs : List (List Char)) (t : ℚ) (i : ℕ),
    (assignTimes seg md cps cs t i).Chain' (fun a b => b.startTime = a.endTime) := by
  intro cs
  induction cs with
  | nil => intro t i; simp [assignTimes]
  | cons c rest ih =>
    intro t i
    cases rest with
    | nil => simp [assignTimes]
    | cons c2 rest2 =>
      rw [assignTimes_step, List.chain'_cons']
      refine ⟨?_, ih _ (i + 1)⟩
      intro y hy
      have hh := assignTimes_head_start seg md cps c2 rest2
        (min (t + max md ((c.length : ℚ) / cps)) seg.endTime) (i + 1)
      rw [hy] at hh
      simpa using hh

theorem assignTimes_duration (seg : RawSegment) (md cps : ℚ) :
    ∀ (cs : List (List Char)) (t : ℚ) (i : ℕ) (r : RawSegment),
    r ∈ assignTimes seg md cps cs t i →
    md ≤ seg.endTime - r.startTime → md ≤ r.endTime - r.startTime := by
  intro cs
  induction cs with
  | nil => intro t i r hr; simp [assignTimes] at hr
  | cons c rest ih =>
    intro t i r hr hrem
    cases rest with
    | nil =>
      simp only [assignTimes, List.mem_singleton] at hr
      subst hr
      simpa using hrem
    | cons c2 rest2 =>
      rw [assignTimes_step, List.mem_cons] at hr
      rcases hr with hr | hr
      · subst hr
        simp only at hrem ⊢
        rw [le_sub_iff_add_le, le_min_iff]
        have hd : md ≤ max md ((c.length : ℚ) / cps) := le_max_left _ _
        constructor
        · linarith
        · linarith
      · exact ih _ _ r hr hrem

theorem splitChunksGo_succ (maxChars fuel : ℕ) (remaining : List Char) :
    splitChunksGo maxChars (fuel + 1) remaining =
      if maxChars < remaining.length then
        jsTrim (remaining.take (if findBalancedSplitPoint remaining maxChars ≤ 0 then maxChars
          else (findBalancedSplitPoint remaining maxChars).toNat)) ::
          splitChunksGo maxChars fuel
            (jsTrim (remaining.drop (if findBalancedSplitPoint remaining maxChars ≤ 0 then
              maxChars else (findBalancedSplitPoint remaining maxChars).toNat)))
      else if 0 < remaining.length then [remaining] else [] := rfl

theorem splitTextIntoChunks_ne_nil {text : List Char} {maxChars : ℕ}
    (h : maxChars < (jsTrim text).length) : splitTextIntoChunks text maxChars ≠ [] := by
  show splitChunksGo maxChars ((jsTrim text).length + 1) (jsTrim text) ≠ []
  rw [splitChunksGo_succ, if_pos h]
  exact List.cons_ne_nil _ _

/-- C1: for a segment with positive duration whose trimmed text exceeds
`maxCharsPerLine × maxLines`, the list returned by `splitSegment` starts at
the original start time, ends at the original end time, each chunk starts
exactly where the previous one ends (no overlap), and every chunk's duration
is at least `minSegmentDuration` except when the span remaining from that
chunk's start to the original end is itself shorter than
`minSegmentDuration`. -/
theorem splitSegment_timing (seg : RawSegment) (opts : SplitOptions)
    (hdur : seg.startTime < seg.endTime)
    (hlen : (resolveOptions opts).maxCharsPerLine * (resolveOptions opts).maxLines <
      (jsTrim seg.text).length) :
    (splitSegment seg opts).head?.map RawSegment.startTime = some seg.startTime ∧
    (splitSegment seg opts).getLast?.map RawSegment.endTime = some seg.endTime ∧
    (splitSegment seg opts).Chain' (fun a b => b.startTime = a.endTime) ∧
    ∀ r ∈ splitSegment seg opts,
      (resolveOptions opts).minSegmentDuration ≤ seg.endTime - r.startTime →
      (resolveOptions opts).minSegmentDuration ≤ r.endTime - r.startTime := by
  have hsplit : splitSegment seg opts =
      assignTimes seg (resolveOptions opts).minSegmentDuration
        (if 0 < seg.endTime - seg.startTime then
          ((jsTrim seg.text).length : ℚ) / (seg.endTime - seg.startTime) else 15)
        (splitTextIntoChunks (jsTrim seg.text)
          ((resolveOptions opts).maxCharsPerLine * (resolveOptions opts).maxLines))
        seg.startTime 0 := by
    unfold splitSegment
    rw [if_neg (not_le.mpr hlen)]
  have hlen' : (resolveOptions opts).maxCharsPerLine * (resolveOptions opts).maxLines <
      (jsTrim (jsTrim seg.text)).length := by
    rw [jsTrim_idem]
    exact hlen
  obtain ⟨c, cs, hcs⟩ := List.exists_cons_of_ne_nil (splitTextIntoChunks_ne_nil hlen')
  rw [hsplit, hcs]
  exact ⟨assignTimes_head_start _ _ _ _ _ _ _, assignTimes_last_end _ _ _ _ _ _ _,
    assignTimes_chain _ _ _ _ _ _,
    fun r hr => assignTimes_duration _ _ _ _ _ _ r hr⟩

/-- Witness for C1 on the spec's scenario segment. -/
theorem splitSegment_timing_witness :
    ((0 : ℚ) < 4) ∧
    ((resolveOptions {}).maxCharsPerLine * (resolveOptions {}).maxLines <
      (jsTrim ("This is a moderately long line of subtitle text that exceeds forty two characters easily").toList).length) ∧
    (splitSegment ⟨0, 0, 4,
      ("This is a moderately long line of subtitle text that exceeds forty two characters easily").toList,
      none⟩ {}).head?.map RawSegment.startTime = some 0 :=
  ⟨by norm_num, by decide,
    (splitSegment_timing _ {} (by show (0 : ℚ) < 4; norm_num) (by decide)).1⟩

/-! ## C2: chunk length bounds -/

theorem lastIndexOfSub_spec (pat l : List Char) :
    lastIndexOfSub pat l = -1 ∨
      (0 ≤ lastIndexOfSub pat l ∧
        lastIndexOfSub pat l + (pat.length : ℤ) ≤ (l.length : ℤ)) := by
  unfold lastIndexOfSub
  apply foldl_inv _ (fun acc : ℤ => acc = -1 ∨ (0 ≤ acc ∧ acc + (pat.length : ℤ) ≤ (l.length : ℤ)))
    _ _ (Or.inl rfl)
  intro s a ha hs
  by_cases hp : pat.isPrefixOf (l.drop a)
  · rw [if_pos hp]
    right
    have hlen := (List.isPrefixOf_iff_prefix.mp hp).length_le
    rw [List.length_drop] at hlen
    rw [List.mem_range] at ha
    constructor
    · exact Int.natCast_nonneg a
    · omega
  · rw [if_neg hp]
    exact hs

theorem scanBreakPats_le {sr : List Char} {pats : List (List Char)} {th : ℚ} {r : ℤ}
    (h : scanBreakPats sr pats th = some r) (hth : 0 ≤ th) : r ≤ (sr.length : ℤ) - 1 := by
  unfold scanBreakPats at h
  obtain ⟨p, hp, hfp⟩ := List.exists_of_findSome?_eq_some h
  dsimp only at hfp
  by_cases hc : th < ((lastIndexOfSub p sr : ℤ) : ℚ)
  · rw [if_pos hc] at hfp
    have hr := Option.some.inj hfp
    rcases lastIndexOfSub_spec p sr with hsp | ⟨h0, hb⟩
    · rw [hsp] at hc
      norm_num at hc
      linarith
    · omega
  · rw [if_neg hc] at hfp
    exact Option.noConfusion hfp

theorem findBestSplitPoint_le (text : List Char) (maxChars : ℕ) :
    findBestSplitPoint text maxChars ≤ (maxChars : ℤ) := by
  unfold findBestSplitPoint
  dsimp only
  have hsr : (text.take maxChars).length ≤ maxChars := List.length_take_le _ _
  cases h1 : scanBreakPats (text.take maxChars) sentenceEnds ((maxChars : ℚ) * (3 / 10)) with
  | some r =>
    dsimp only
    have := scanBreakPats_le h1 (by positivity)
    omega
  | none =>
    dsimp only
    cases h2 : scanBreakPats (text.take maxChars) clauseBreaks ((maxChars : ℚ) * (4 / 10)) with
    | some r =>
      dsimp only
      have := scanBreakPats_le h2 (by positivity)
      omega
    | none =>
      dsimp only
      rcases lastIndexOfSub_spec [' '] (text.take maxChars) with hsp | ⟨h0, hb⟩
      · rw [hsp]
        split_ifs <;> omega
      · simp only [List.length_cons, List.length_nil] at hb
        split_ifs <;> omega

theorem fbspStep_cases (text : List Char) (target : ℕ) (s : ℤ × Option ℤ) (i : ℕ) :
    fbspStep text target s i = s ∨ (fbspStep text target s i).1 = (i : ℤ) := by
  unfold fbspStep
  dsimp only
  split
  · split
    · split
      · right; rfl
      · left; rfl
    · split
      · right; rfl
      · left; rfl
  · left; rfl

theorem fold_best_in_range (f : (ℤ × Option ℤ) → ℕ → (ℤ × Option ℤ))
    (hf : ∀ s i, f s i = s ∨ (f s i).1 = (i : ℤ)) (lo n : ℕ) :
    ((List.range' lo n).foldl f (-1, none)).1 = -1 ∨
      ∃ i : ℕ, lo ≤ i ∧ i < lo + n ∧
        ((List.range' lo n).foldl f (-1, none)).1 = (i : ℤ) := by
  apply foldl_inv f
    (fun s : ℤ × Option ℤ => s.1 = -1 ∨ ∃ i : ℕ, lo ≤ i ∧ i < lo + n ∧ s.1 = (i : ℤ))
    _ _ (Or.inl rfl)
  intro s a ha hs
  rcases hf s a with h | h
  · rw [h]; exact hs
  · right
    rw [List.mem_range'_1] at ha
    exact ⟨a, ha.1, ha.2, h⟩

theorem findBalancedSplitPoint_le (text : List Char) (maxChars : ℕ) :
    findBalancedSplitPoint text maxChars ≤ (maxChars : ℤ) + 20 := by
  have hbest := findBestSplitPoint_le text maxChars
  unfold findBalancedSplitPoint
  dsimp only
  split
  · rename_i hlen
    rcases fold_best_in_range (fbspStep text (text.length / 2))
        (fbspStep_cases text (text.length / 2))
        (text.length / 2 - min 20 (text.length / 4))
        (min (text.length - 1) (text.length / 2 + min 20 (text.length / 4)) + 1 -
          (text.length / 2 - min 20 (text.length / 4))) with h | ⟨i, hlo, hhi, hi⟩
    · rw [h]
      rw [if_neg (by norm_num)]
      omega
    · rw [hi]
      split_ifs with h0
      · omega
      · omega
  · omega

theorem splitChunksGo_length_bound (maxChars : ℕ) :
    ∀ (fuel : ℕ) (remaining : List Char), ∀ c ∈ splitChunksGo maxChars fuel remaining,
      c.length ≤ maxChars + 20 := by
  intro fuel
  induction fuel with
  | zero => intro rem c hc; simp [splitChunksGo] at hc
  | succ fuel ih =>
    intro rem c hc
    rw [splitChunksGo_succ] at hc
    by_cases h1 : maxChars < rem.length
    · rw [if_pos h1] at hc
      rw [List.mem_cons] at hc
      rcases hc with hc | hc
      · subst hc
        have hsi : (if findBalancedSplitPoint rem maxChars ≤ 0 then maxChars
            else (findBalancedSplitPoint rem maxChars).toNat) ≤ maxChars + 20 := by
          split_ifs with h2
          · omega
          · have := findBalancedSplitPoint_le rem maxChars
            omega
        calc (jsTrim (rem.take _)).length ≤ (rem.take _).length := jsTrim_length_le _
          _ ≤ _ := List.length_take_le _ _
          _ ≤ maxChars + 20 := hsi
      · exact ih _ c hc
    · rw [if_neg h1] at hc
      by_cases h2 : 0 < rem.length
      · rw [if_pos h2, List.mem_singleton] at hc
        subst hc
        omega
      · rw [if_neg h2] at hc
        simp at hc

theorem assignTimes_text_mem (seg : RawSegment) (md cps : ℚ) :
    ∀ (cs : List (List Char)) (t : ℚ) (i : ℕ) (r : RawSegment),
    r ∈ assignTimes seg md cps cs t i → r.text ∈ cs := by
  intro cs
  induction cs with
  | nil => intro t i r hr; simp [assignTimes] at hr
  | cons c rest ih =>
    intro t i r hr
    cases rest with
    | nil =>
      simp only [assignTimes, List.mem_singleton] at hr
      subst hr
      exact List.mem_cons_self _ _
    | cons c2 rest2 =>
      rw [assignTimes_step, List.mem_cons] at hr
      rcases hr with hr | hr
      · subst hr
        exact List.mem_cons_self _ _
      · exact List.mem_cons_of_mem _ (ih _ _ r hr)

set_option maxRecDepth 8000 in
/-- C2 (amended): every segment returned by `splitSegment` has text of length
at most `maxCharsPerLine*maxLines + 20` — the balanced-split search may
overshoot the `maxCharsPerLine*maxLines` budget by up to its 20-character
midpoint window, so the exact `≤ maxCharsPerLine*maxLines` bound does not
hold universally; the spec's concrete scenario does hold: the 88-character
sample segment over `[0,4]` splits into exactly 2 chunks, each at most 84
characters, spanning `[0,4]` contiguously. -/
theorem splitSegment_chunk_length :
    (∀ (seg : RawSegment) (opts : SplitOptions) (r : RawSegment), r ∈ splitSegment seg opts →
      r.text.length ≤
        (resolveOptions opts).maxCharsPerLine * (resolveOptions opts).maxLines + 20) ∧
    ((splitSegment ⟨0, 0, 4,
        ("This is a moderately long line of subtitle text that exceeds forty two characters easily").toList,
        none⟩ {}).length = 2 ∧
      (∀ r ∈ splitSegment ⟨0, 0, 4,
        ("This is a moderately long line of subtitle text that exceeds forty two characters easily").toList,
        none⟩ {}, r.text.length ≤ 84) ∧
      (splitSegment ⟨0, 0, 4,
        ("This is a moderately long line of subtitle text that exceeds forty two characters easily").toList,
        none⟩ {}).head?.map RawSegment.startTime = some 0 ∧
      (splitSegment ⟨0, 0, 4,
        ("This is a moderately long line of subtitle text that exceeds forty two characters easily").toList,
        none⟩ {}).getLast?.map RawSegment.endTime = some 4 ∧
      (splitSegment ⟨0, 0, 4,
        ("This is a moderately long line of subtitle text that exceeds forty two characters easily").toList,
        none⟩ {}).Chain' (fun a b => b.startTime = a.endTime)) := by
  constructor
  · intro seg opts r hr
    unfold splitSegment at hr
    by_cases hle : (jsTrim seg.text).length ≤
        (resolveOptions opts).maxCharsPerLine * (resolveOptions opts).maxLines
    · rw [if_pos hle, List.mem_singleton] at hr
      subst hr
      simpa using hle.trans (by omega)
    · rw [if_neg hle] at hr
      have hmem := assignTimes_text_mem _ _ _ _ _ _ r hr
      exact splitChunksGo_length_bound _ _ _ _ hmem
  · refine ⟨by decide, by decide, by decide, by decide, ?_⟩
    show (splitSegment ⟨0, 0, 4,
        ("This is a moderately long line of subtitle text that exceeds forty two characters easily").toList,
        none⟩ {}).Chain' (fun a b => b.startTime = a.endTime)
    unfold splitSegment
    rw [if_neg (by decide)]
    exact assignTimes_chain _ _ _ _ _ _

/-- Witness for C2 on a short segment (returned unchanged, within the
bound). -/
theorem splitSegment_chunk_length_witness :
    (⟨7, 0, 2, ("hello world").toList, some 1⟩ : RawSegment) ∈
      splitSegment (⟨7, 0, 2, ("hello world").toList, some 1⟩ : RawSegment) {} ∧
    (RawSegment.mk 7 0 2 (("hello world").toList) (some 1)).text.length ≤
      (resolveOptions {}).maxCharsPerLine * (resolveOptions {}).maxLines + 20 :=
  ⟨by decide, splitSegment_chunk_length.1 (⟨7, 0, 2, ("hello world").toList, some 1⟩ : RawSegment)
    {} (⟨7, 0, 2, ("hello world").toList, some 1⟩ : RawSegment) (by decide)⟩

/-! ## C8 and C9: processing pipeline -/

theorem processInBackground_cleaned (route : Bool) (env : FfmpegEnv) (tf0 : List String) :
    ((∃ msg, (processMediaFile env).2 = Except.error msg) ∧
      (processInBackground route env tf0).cleaned = tf0) ∨
    ∃ res : MediaOutput, (processMediaFile env).2 = Except.ok res ∧
      (processInBackground route env tf0).cleaned = tf0
        ++ (match res.previewPath with | some p => [p] | none => [])
        ++ (match res.thumbnailPath with | some p => [p] | none => [])
        ++ [res.audioPath] := by
  unfold processInBackground
  rcases hpm : processMediaFile env with ⟨steps, msg | res⟩
  · left
    exact ⟨⟨msg, rfl⟩, rfl⟩
  · right
    refine ⟨res, rfl, ?_⟩
    show (persistPhase steps _ (uploadPhase route env res)).cleaned = _
    rcases hup : uploadPhase route env res with ⟨usteps, m | ⟨ua, pu, tu⟩⟩
    · rfl
    · rfl

/-- C8 (amended): within one job the pipeline steps always form a
subsequence of the fixed order probe → audio-extract → (video)
preview-transcode → (video) thumbnail-extract → uploads → persist (the
transcription-audio extraction runs *before* the preview transcode, not
after it); the probe always comes first, a job that ends `ready` performed
the persistence step last, and audio-only sources never attempt the preview
or thumbnail steps. -/
theorem pipeline_step_order (routeIsVideo : Bool) (env : FfmpegEnv) (tf0 : List String) :
    (processInBackground routeIsVideo env tf0).trace.Sublist canonicalStepOrder ∧
    (processInBackground routeIsVideo env tf0).trace.head? = some Step.probe ∧
    (env.isVideo = false →
      Step.previewTranscode ∉ (processInBackground routeIsVideo env tf0).trace ∧
      Step.thumbnailExtract ∉ (processInBackground routeIsVideo env tf0).trace) ∧
    ((processInBackground routeIsVideo env tf0).record.status = "ready" →
      (processInBackground routeIsVideo env tf0).trace.getLast? = some Step.persist) := by
  obtain ⟨iv, a, p, th, u1, u2, u3⟩ := env
  cases iv <;> cases a <;> cases p <;> cases th <;> cases u1 <;> cases u2 <;> cases u3 <;>
    cases routeIsVideo <;>
    · dsimp only [processInBackground, processMediaFile, uploadPhase, thumbUploadPhase,
        persistPhase, Option.map]
      decide

/-- Witness for C8: an audio-only job never reaches the preview step. -/
theorem pipeline_step_order_witness :
    Step.previewTranscode ∉ (processInBackground false
      ⟨false, some ⟨"/tmp/subzcreator/a.mp3", 1, 10⟩, none, none,
        Except.ok "u", Except.ok "v", Except.ok "w"⟩ []).trace :=
  ((pipeline_step_order false
    ⟨false, some ⟨"/tmp/subzcreator/a.mp3", 1, 10⟩, none, none,
      Except.ok "u", Except.ok "v", Except.ok "w"⟩ []).2.2.1 rfl).1

/-- C8 counterexample: on a fully successful video job the trace runs the
audio extraction *before* the preview transcode, so the claimed order
(probe, then preview transcode, then audio extraction) is violated. -/
theorem pipeline_audio_before_preview :
    (processInBackground true
      ⟨true, some ⟨"/tmp/subzcreator/a.mp3", 1, 10⟩, some ⟨"/tmp/subzcreator/p.mp4", 1, 10⟩,
        some ⟨"/tmp/subzcreator/t.jpg", 1⟩, Except.ok "u1", Except.ok "u2", Except.ok "u3"⟩
      []).trace =
      [Step.probe, Step.audioExtract, Step.previewTranscode, Step.thumbnailExtract,
       Step.uploadAudio, Step.uploadPreview, Step.uploadThumbnail, Step.persist] ∧
    ¬ [Step.previewTranscode, Step.audioExtract].Sublist
      (processInBackground true
        ⟨true, some ⟨"/tmp/subzcreator/a.mp3", 1, 10⟩, some ⟨"/tmp/subzcreator/p.mp4", 1, 10⟩,
          some ⟨"/tmp/subzcreator/t.jpg", 1⟩, Except.ok "u1", Except.ok "u2", Except.ok "u3"⟩
        []).trace := by
  exact ⟨by decide, by decide⟩

/-- C9: a thumbnail-extraction failure alone still ends the job `ready`
with no thumbnail URL; every other failing step (audio extraction, preview
transcode, or any upload) aborts the remaining steps and ends the job in
`error` carrying that step's message; and in every case all recorded temp
files are handed to the final cleanup loop. -/
theorem pipeline_error_handling :
    (∀ (a p : ConversionResult) (ua up : String) (u3 : Except String String) (tf0 : List String),
      (processInBackground true ⟨true, some a, some p, none, Except.ok ua, Except.ok up, u3⟩
        tf0).record = ⟨"ready", none, some up, none, some ua⟩) ∧
    (∀ (iv route : Bool) (p : Option ConversionResult) (th : Option ThumbnailResult)
        (u1 u2 u3 : Except String String) (tf0 : List String),
      (processInBackground route ⟨iv, none, p, th, u1, u2, u3⟩ tf0).record =
        ⟨"error", some "Failed to extract audio", none, none, none⟩ ∧
      Step.previewTranscode ∉ (processInBackground route ⟨iv, none, p, th, u1, u2, u3⟩ tf0).trace ∧
      Step.thumbnailExtract ∉ (processInBackground route ⟨iv, none, p, th, u1, u2, u3⟩ tf0).trace ∧
      Step.uploadAudio ∉ (processInBackground route ⟨iv, none, p, th, u1, u2, u3⟩ tf0).trace ∧
      Step.persist ∉ (processInBackground route ⟨iv, none, p, th, u1, u2, u3⟩ tf0).trace) ∧
    (∀ (route : Bool) (a : ConversionResult) (th : Option ThumbnailResult)
        (u1 u2 u3 : Except String String) (tf0 : List String),
      (processInBackground route ⟨true, some a, none, th, u1, u2, u3⟩ tf0).record =
        ⟨"error", some "Failed to convert to 480p", none, none, none⟩ ∧
      Step.thumbnailExtract ∉ (processInBackground route ⟨true, some a, none, th, u1, u2, u3⟩ tf0).trace ∧
      Step.uploadAudio ∉ (processInBackground route ⟨true, some a, none, th, u1, u2, u3⟩ tf0).trace ∧
      Step.persist ∉ (processInBackground route ⟨true, some a, none, th, u1, u2, u3⟩ tf0).trace) ∧
    (∀ (a p : ConversionResult) (th : Option ThumbnailResult) (msg : String)
        (u2 u3 : Except String String) (tf0 : List String),
      (processInBackground true ⟨true, some a, some p, th, Except.error msg, u2, u3⟩ tf0).record =
        ⟨"error", some msg, none, none, none⟩ ∧
      Step.uploadPreview ∉
        (processInBackground true ⟨true, some a, some p, th, Except.error msg, u2, u3⟩ tf0).trace ∧
      Step.uploadThumbnail ∉
        (processInBackground true ⟨true, some a, some p, th, Except.error msg, u2, u3⟩ tf0).trace ∧
      Step.persist ∉
        (processInBackground true ⟨true, some a, some p, th, Except.error msg, u2, u3⟩ tf0).trace) ∧
    (∀ (a p : ConversionResult) (th : Option ThumbnailResult) (ua msg : String)
        (u3 : Except String String) (tf0 : List String),
      (processInBackground true ⟨true, some a, some p, th, Except.ok ua, Except.error msg, u3⟩
        tf0).record = ⟨"error", some msg, none, none, none⟩ ∧
      Step.uploadThumbnail ∉ (processInBackground true
        ⟨true, some a, some p, th, Except.ok ua, Except.error msg, u3⟩ tf0).trace ∧
      Step.persist ∉ (processInBackground true
        ⟨true, some a, some p, th, Except.ok ua, Except.error msg, u3⟩ tf0).trace) ∧
    (∀ (a p : ConversionResult) (t : ThumbnailResult) (ua up msg : String) (tf0 : List String),
      (processInBackground true
        ⟨true, some a, some p, some t, Except.ok ua, Except.ok up, Except.error msg⟩ tf0).record =
        ⟨"error", some msg, none, none, none⟩ ∧
      Step.persist ∉ (processInBackground true
        ⟨true, some a, some p, some t, Except.ok ua, Except.ok up, Except.error msg⟩ tf0).trace) ∧
    (∀ (route : Bool) (env : FfmpegEnv) (tf0 : List String),
      (∀ f ∈ tf0, f ∈ (processInBackground route env tf0).cleaned) ∧
      ∀ res : MediaOutput, (processMediaFile env).2 = Except.ok res →
        res.audioPath ∈ (processInBackground route env tf0).cleaned ∧
        (∀ pp, res.previewPath = some pp → pp ∈ (processInBackground route env tf0).cleaned) ∧
        (∀ tp, res.thumbnailPath = some tp → tp ∈ (processInBackground route env tf0).cleaned)) := by
  have dtac : ∀ route iv (a p : Option ConversionResult) th u1 u2 u3 tf0,
      (processInBackground route ⟨iv, a, p, th, u1, u2, u3⟩ tf0).trace =
        (processInBackground route ⟨iv, a, p, th, u1, u2, u3⟩ tf0).trace := fun _ _ _ _ _ _ _ _ _ => rfl
  refine ⟨?_, ?_, ?_, ?_, ?_, ?_, ?_⟩
  · intro a p ua up u3 tf0
    rfl
  · intro iv route p th u1 u2 u3 tf0
    refine ⟨rfl, ?_, ?_, ?_, ?_⟩ <;>
      · dsimp only [processInBackground, processMediaFile]
        decide
  · intro route a th u1 u2 u3 tf0
    refine ⟨rfl, ?_, ?_, ?_⟩ <;>
      · dsimp only [processInBackground, processMediaFile]
        decide
  · intro a p th msg u2 u3 tf0
    refine ⟨rfl, ?_, ?_, ?_⟩ <;>
      · dsimp only [processInBackground, processMediaFile, uploadPhase, thumbUploadPhase,
          persistPhase, Option.map]
        decide
  · intro a p th ua msg u3 tf0
    refine ⟨rfl, ?_, ?_⟩ <;>
      · dsimp only [processInBackground, processMediaFile, uploadPhase, thumbUploadPhase,
          persistPhase, Option.map]
        decide
  · intro a p t ua up msg tf0
    refine ⟨rfl, ?_⟩
    dsimp only [processInBackground, processMediaFile, uploadPhase, thumbUploadPhase,
      persistPhase, Option.map]
    decide
  · intro route env tf0
    constructor
    · intro f hf
      rcases processInBackground_cleaned route env tf0 with ⟨_, h⟩ | ⟨res, _, h⟩
      · rw [h]; exact hf
      · rw [h]; simp [hf]
    · intro res hres
      rcases processInBackground_cleaned route env tf0 with ⟨⟨msg, hmsg⟩, _⟩ | ⟨res2, hres2, h⟩
      · rw [hres] at hmsg; exact Except.noConfusion hmsg
      · rw [hres2] at hres
        have he := Except.ok.inj hres
        subst he
        rw [h]
        refine ⟨by simp, ?_, ?_⟩
        · intro pp hpp
          simp [hpp]
        · intro tp htp
          simp [htp]

/-- Witness for C9: a recorded temp file of a concrete successful audio job
appears in the final cleanup list. -/
theorem pipeline_error_handling_witness :
    ("/tmp/subzcreator/orig.mp3" : String) ∈ (processInBackground false
      ⟨false, some ⟨"/tmp/subzcreator/a.mp3", 1, 10⟩, none, none,
        Except.ok "u", Except.ok "v", Except.ok "w"⟩ ["/tmp/subzcreator/orig.mp3"]).cleaned :=
  ((pipeline_error_handling.2.2.2.2.2.2 false
    ⟨false, some ⟨"/tmp/subzcreator/a.mp3", 1, 10⟩, none, none,
      Except.ok "u", Except.ok "v", Except.ok "w"⟩ ["/tmp/subzcreator/orig.mp3"]).1
    "/tmp/subzcreator/orig.mp3" (by decide))

set_option maxRecDepth 8000 in
/-- C2 counterexample: with the default options (`maxChars = 84`), the
168-character segment whose only space sits at index 104 is split into a
first chunk of 104 characters, exceeding `maxCharsPerLine*maxLines = 84`. -/
theorem splitSegment_chunk_over_limit :
    ∃ r ∈ splitSegment ⟨0, 0, 4, List.replicate 104 'a' ++ ' ' :: List.replicate 63 'b', none⟩ {},
      84 < r.text.length := by
  decide

/-! ## C10: line-balancer split range -/

theorem fmtStep_cases (trimmed : List Char) (m : ℕ) (s : ℤ × Option ℤ) (i : ℕ) :
    fmtStep trimmed m s i = s ∨
      ((fmtStep trimmed m s i).1 = (i : ℤ) ∧ trimmed.get? i = some ' ') := by
  unfold fmtStep
  dsimp only
  split
  · rename_i h1
    split
    · left; rfl
    · split
      · right; exact ⟨rfl, h1⟩
      · left; rfl
  · left; rfl

theorem fmt_fold_spec (trimmed : List Char) (m lo n : ℕ) :
    ((List.range' lo n).foldl (fmtStep trimmed m) (-1, none)).1 = -1 ∨
      ∃ i : ℕ, lo ≤ i ∧ i < lo + n ∧ trimmed.get? i = some ' ' ∧
        ((List.range' lo n).foldl (fmtStep trimmed m) (-1, none)).1 = (i : ℤ) := by
  apply foldl_inv _ (fun s : ℤ × Option ℤ => s.1 = -1 ∨
    ∃ i : ℕ, lo ≤ i ∧ i < lo + n ∧ trimmed.get? i = some ' ' ∧ s.1 = (i : ℤ)) _ _ (Or.inl rfl)
  intro s a ha hs
  rcases fmtStep_cases trimmed m s a with h | ⟨h1, h2⟩
  · rw [h]; exact hs
  · right
    rw [List.mem_range'_1] at ha
    exact ⟨a, ha.1, ha.2, h2, h1⟩

theorem fmt_fold_id (trimmed : List Char) (m lo n : ℕ)
    (h : ∀ i ∈ List.range' lo n, trimmed.get? i ≠ some ' ') :
    (List.range' lo n).foldl (fmtStep trimmed m) (-1, none) = ((-1 : ℤ), (none : Option ℤ)) := by
  apply foldl_inv _ (fun s : ℤ × Option ℤ => s = ((-1 : ℤ), (none : Option ℤ))) _ _ rfl
  intro s a ha hs
  subst hs
  unfold fmtStep
  rw [if_neg (h a ha)]

theorem formatSubtitleText_cases (text : List Char) (m : ℕ) :
    formatSubtitleText text m = jsTrim text ∨
    ∃ i : ℕ, 10 ≤ i ∧ i + 10 ≤ (jsTrim text).length ∧ (jsTrim text).get? i = some ' ' ∧
      formatSubtitleText text m =
        jsTrim ((jsTrim text).take i) ++ '\n' :: jsTrim ((jsTrim text).drop (i + 1)) := by
  unfold formatSubtitleText
  dsimp only
  split
  · exact Or.inl rfl
  · rcases fmt_fold_spec (jsTrim text) m
        (max 10 ((jsTrim text).length / 2 - min 25 ((jsTrim text).length / 3)))
        (min ((jsTrim text).length - 10)
            ((jsTrim text).length / 2 + min 25 ((jsTrim text).length / 3)) + 1 -
          max 10 ((jsTrim text).length / 2 - min 25 ((jsTrim text).length / 3)))
      with h | ⟨i, hlo, hhi, hsp, hi⟩
    · rw [h, if_neg (by norm_num)]
      exact Or.inl rfl
    · rw [hi]
      have h10 : 10 ≤ i := le_trans (le_max_left _ _) hlo
      rw [if_pos (by exact_mod_cast Nat.lt_of_lt_of_le (by norm_num) h10)]
      right
      refine ⟨i, h10, by omega, hsp, ?_⟩
      rw [Int.toNat_natCast]

/-- C10 (amended): the line balancer only inserts a break at a space index
`i` with `10 ≤ i ≤ length − 10` of the trimmed text — any two-line result
comes from such an interior split — and consequently any text longer than
`maxCharsPerLine` whose spaces all lie within the first 10 or the last **9**
characters is returned as a single over-length line with no break (the
search range is inclusive at `length − 10`, which is itself within the last
10 characters). -/
theorem formatSubtitleText_interior_split (text : List Char) (m : ℕ) :
    (formatSubtitleText text m = jsTrim text ∨
      ∃ i : ℕ, 10 ≤ i ∧ i + 10 ≤ (jsTrim text).length ∧ (jsTrim text).get? i = some ' ' ∧
        formatSubtitleText text m =
          jsTrim ((jsTrim text).take i) ++ '\n' :: jsTrim ((jsTrim text).drop (i + 1))) ∧
    (m < (jsTrim text).length →
      (∀ i : ℕ, 10 ≤ i → i + 10 ≤ (jsTrim text).length → (jsTrim text).get? i ≠ some ' ') →
      formatSubtitleText text m = jsTrim text) := by
  refine ⟨formatSubtitleText_cases text m, ?_⟩
  intro hlen hnosp
  unfold formatSubtitleText
  dsimp only
  rw [if_neg (not_le.mpr hlen)]
  rw [fmt_fold_id _ _ _ _ (by
    intro i hi
    rw [List.mem_range'_1] at hi
    exact hnosp i (le_trans (le_max_left _ _) hi.1) (by omega))]
  rw [if_neg (by norm_num)]

/-- Witness for C10: a 50-character space-free text is returned unchanged. -/
theorem formatSubtitleText_interior_split_witness :
    formatSubtitleText (List.replicate 50 'a') 42 = jsTrim (List.replicate 50 'a') :=
  (formatSubtitleText_interior_split (List.replicate 50 'a') 42).2 (by decide)
    (by
      intro i h1 h2 heq
      rw [List.get?_eq_getElem?] at heq
      rw [show jsTrim (List.replicate 50 'a') = List.replicate 50 'a' from by decide] at heq h2
      rw [List.getElem?_replicate] at heq
      split at heq
      · exact absurd (Option.some.inj heq) (by decide)
      · exact Option.noConfusion heq)

/-- C10 counterexample: the balancer's search is inclusive at index
`length − 10`: this 52-character text's only space sits at index
`42 = 52 − 10`, within its last 10 characters, yet a line break is inserted
there, so the text is not returned as a single line. -/
theorem formatSubtitleText_splits_in_last10 :
    (∀ i : ℕ, i < 52 →
      (List.replicate 42 'a' ++ ' ' :: List.replicate 9 'b').get? i = some ' ' →
      52 - 10 ≤ i) ∧
    42 < (List.replicate 42 'a' ++ ' ' :: List.replicate 9 'b' : List Char).length ∧
    formatSubtitleText (List.replicate 42 'a' ++ ' ' :: List.replicate 9 'b') 42 ≠
      jsTrim (List.replicate 42 'a' ++ ' ' :: List.replicate 9 'b') := by
  exact ⟨by decide, by decide, by decide⟩

/-! ## C4: balance idempotence -/

theorem collapseWs_singleton (c : Char) :
    collapseWs [c] = if jsWs c then [' '] else [c] := rfl

theorem collapseWs_cons_cons (c d : Char) (cs : List Char) :
    collapseWs (c :: d :: cs) =
      if jsWs c && jsWs d then collapseWs (d :: cs)
      else (if jsWs c then ' ' else c) :: collapseWs (d :: cs) := rfl

theorem collapseWs_head? (cs : List Char) : ∀ d : Char,
    (collapseWs (d :: cs)).head? = some (if jsWs d then ' ' else d) := by
  induction cs with
  | nil =>
    intro d
    rw [collapseWs_singleton]
    split_ifs <;> rfl
  | cons e cs ih =>
    intro d
    rw [collapseWs_cons_cons]
    cases h1 : jsWs d <;> cases h2 : jsWs e <;> simp [h1, h2, ih e]

theorem collapseWs_ws_space : ∀ l : List Char, ∀ c ∈ collapseWs l, jsWs c = true → c = ' '
  | [] => by intro c hc; simp [collapseWs] at hc
  | [d] => by
    intro c hc hws
    rw [collapseWs_singleton] at hc
    split_ifs at hc with h
    · simpa using hc
    · rw [List.mem_singleton] at hc
      subst hc
      exact absurd hws h
  | c0 :: d :: cs => by
    intro c hc hws
    rw [collapseWs_cons_cons] at hc
    split_ifs at hc with h h0
    · exact collapseWs_ws_space (d :: cs) c hc hws
    · rw [List.mem_cons] at hc
      rcases hc with hc | hc
      · exact hc
      · exact collapseWs_ws_space (d :: cs) c hc hws
    · rw [List.mem_cons] at hc
      rcases hc with hc | hc
      · subst hc
        exact absurd hws h0
      · exact collapseWs_ws_space (d :: cs) c hc hws

theorem collapseWs_noRun :
    ∀ l : List Char, (collapseWs l).Chain' (fun a b => ¬(jsWs a = true ∧ jsWs b = true))
  | [] => by simp [collapseWs]
  | [d] => by
    rw [collapseWs_singleton]
    split_ifs <;> simp
  | c0 :: d :: cs => by
    rw [collapseWs_cons_cons]
    split_ifs with h h0
    · exact collapseWs_noRun (d :: cs)
    · refine List.Chain'.cons' (collapseWs_noRun (d :: cs)) ?_
      intro y hy
      rw [collapseWs_head? cs d] at hy
      have hy2 := Option.some.inj hy
      intro hcon
      rw [Bool.and_eq_true] at h
      have hd : ¬ jsWs d = true := fun hdt => h ⟨h0, hdt⟩
      rw [if_neg hd] at hy2
      subst hy2
      exact hd hcon.2
    · refine List.Chain'.cons' (collapseWs_noRun (d :: cs)) ?_
      intro y hy
      intro hcon
      exact h0 hcon.1

theorem collapseWs_eq_self :
    ∀ l : List Char, (∀ c ∈ l, jsWs c = true → c = ' ') →
      l.Chain' (fun a b => ¬(jsWs a = true ∧ jsWs b = true)) →
      collapseWs l = l
  | [] => by intro _ _; rfl
  | [d] => by
    intro hws _
    rw [collapseWs_singleton]
    split_ifs with h
    · rw [hws d (List.mem_singleton_self d) h]
    · rfl
  | c0 :: d :: cs => by
    intro hws hch
    rw [collapseWs_cons_cons]
    have hrel := (List.chain'_cons.mp hch).1
    rw [if_neg (by
      intro hand
      rw [Bool.and_eq_true] at hand
      exact hrel hand)]
    have htail := (List.chain'_cons.mp hch).2
    rw [collapseWs_eq_self (d :: cs)
      (fun c hc h => hws c (List.mem_cons_of_mem c0 hc) h) htail]
    split_ifs with h
    · rw [hws c0 (List.mem_cons_self c0 (d :: cs)) h]
    · rfl

theorem chain'_noRun_reverse {l : List Char}
    (h : l.Chain' (fun a b => ¬(jsWs a = true ∧ jsWs b = true))) :
    l.reverse.Chain' (fun a b => ¬(jsWs a = true ∧ jsWs b = true)) := by
  rw [List.chain'_reverse]
  exact List.Chain'.imp (fun a b hab hc => hab ⟨hc.2, hc.1⟩) h

theorem jsTrim_chain_noRun {l : List Char}
    (h : l.Chain' (fun a b => ¬(jsWs a = true ∧ jsWs b = true))) :
    (jsTrim l).Chain' (fun a b => ¬(jsWs a = true ∧ jsWs b = true)) := by
  unfold jsTrim
  exact chain'_noRun_reverse
    (((chain'_noRun_reverse (h.suffix (List.dropWhile_suffix _))).suffix
      (List.dropWhile_suffix _)))

theorem cleaned_cleanForBalance (x : List Char) : CleanedL (cleanForBalance x) := by
  refine ⟨?_, ?_, ?_, ?_⟩
  · intro c hc hws
    exact collapseWs_ws_space _ c (mem_jsTrim hc) hws
  · exact jsTrim_chain_noRun (collapseWs_noRun _)
  · intro c hc
    exact jsTrim_head_not_ws hc
  · intro c hc
    exact jsTrim_last_not_ws hc

theorem replaceNewlines_eq_self {l : List Char} (h : ∀ c ∈ l, c ≠ '\n') :
    replaceNewlines l = l := by
  unfold replaceNewlines
  have h2 : ∀ c ∈ l, (if c = '\n' then ' ' else c) = c := by
    intro c hc
    rw [if_neg (h c hc)]
  calc l.map (fun c => if c = '\n' then ' ' else c) = l.map id := List.map_congr_left h2
    _ = l := List.map_id l

theorem cleaned_no_newline {y : List Char} (hy : CleanedL y) : ∀ c ∈ y, c ≠ '\n' := by
  intro c hc he
  subst he
  have := hy.wsSpace '\n' hc (by decide)
  exact absurd this (by decide)

theorem cleaned_id {y : List Char} (hy : CleanedL y) : cleanForBalance y = y := by
  unfold cleanForBalance
  rw [replaceNewlines_eq_self (cleaned_no_newline hy),
    collapseWs_eq_self y hy.wsSpace hy.noRun,
    jsTrim_eq_self hy.headNoWs hy.lastNoWs]

theorem chain'_rel_get? {R : Char → Char → Prop} {l : List Char} (h : l.Chain' R)
    {j : ℕ} {a b : Char} (ha : l.get? j = some a) (hb : l.get? (j + 1) = some b) : R a b := by
  rw [List.get?_eq_getElem?] at ha hb
  have hj1 : j + 1 < l.length := (List.getElem?_eq_some.mp hb).1
  have hj : j < l.length := by omega
  have hch := List.chain'_iff_get.mp h j (by omega)
  rw [List.get_eq_getElem, List.get_eq_getElem] at hch
  rw [List.getElem?_eq_getElem hj] at ha
  rw [List.getElem?_eq_getElem hj1] at hb
  rw [← Option.some.inj ha, ← Option.some.inj hb]
  exact hch

theorem cleaned_clean_format {y : List Char} (hy : CleanedL y) (m : ℕ) :
    cleanForBalance (formatSubtitleText y m) = y := by
  have htrim : jsTrim y = y := jsTrim_eq_self hy.headNoWs hy.lastNoWs
  rcases formatSubtitleText_cases y m with h | ⟨i, h10, hilen, hsp, heq⟩
  · rw [h, htrim]
    exact cleaned_id hy
  · rw [htrim] at hilen hsp heq
    rw [heq]
    have hiy : i < y.length := by omega
    have hi1y : i + 1 < y.length := by omega
    have him1y : i - 1 < y.length := by omega
    have hspi : y.get ⟨i, hiy⟩ = ' ' := by
      have h2 := List.get?_eq_get (l := y) hiy
      rw [hsp] at h2
      exact (Option.some.inj h2).symm
    have hprev : jsWs (y.get ⟨i - 1, him1y⟩) = false := by
      cases hval : jsWs (y.get ⟨i - 1, him1y⟩)
      · rfl
      · exfalso
        have hrel := chain'_rel_get? hy.noRun (List.get?_eq_get him1y)
          (show y.get? (i - 1 + 1) = some ' ' by
            rw [show i - 1 + 1 = i from by omega]
            exact hsp)
        exact hrel ⟨hval, by decide⟩
    have hnext : jsWs (y.get ⟨i + 1, hi1y⟩) = false := by
      cases hval : jsWs (y.get ⟨i + 1, hi1y⟩)
      · rfl
      · exfalso
        have hrel := chain'_rel_get? hy.noRun hsp (List.get?_eq_get hi1y)
        exact hrel ⟨by decide, hval⟩
    have hsplit : y.take i ++ ' ' :: y.drop (i + 1) = y := by
      have hspe := hspi
      rw [List.get_eq_getElem] at hspe
      conv_rhs => rw [← List.take_append_drop i y]
      rw [List.drop_eq_getElem_cons hiy, hspe]
    have hAhead : ∀ c, (y.take i).head? = some c → jsWs c = false := by
      intro c hc
      rw [List.head?_take, if_neg (by omega)] at hc
      exact hy.headNoWs c hc
    have hAlast : ∀ c, (y.take i).getLast? = some c → jsWs c = false := by
      intro c hc
      have hprev2 := hprev
      rw [List.get_eq_getElem] at hprev2
      rw [show i = (i - 1) + 1 by omega, List.take_succ,
        List.getElem?_eq_getElem him1y] at hc
      simp only [Option.toList_some] at hc
      rw [List.getLast?_concat] at hc
      rw [← Option.some.inj hc]
      exact hprev2
    have hBhead : ∀ c, (y.drop (i + 1)).head? = some c → jsWs c = false := by
      intro c hc
      have hnext2 := hnext
      rw [List.get_eq_getElem] at hnext2
      rw [List.head?_drop, List.getElem?_eq_getElem hi1y] at hc
      rw [← Option.some.inj hc]
      exact hnext2
    have hBlast : ∀ c, (y.drop (i + 1)).getLast? = some c → jsWs c = false := by
      intro c hc
      rw [List.getLast?_drop, if_neg (by omega)] at hc
      exact hy.lastNoWs c hc
    rw [jsTrim_eq_self hAhead hAlast, jsTrim_eq_self hBhead hBlast]
    unfold cleanForBalance
    rw [show replaceNewlines (y.take i ++ '\n' :: y.drop (i + 1)) =
        y.take i ++ ' ' :: y.drop (i + 1) by
      unfold replaceNewlines
      rw [List.map_append, List.map_cons,
        show (y.take i).map (fun c => if c = '\n' then ' ' else c) = y.take i from
          replaceNewlines_eq_self (fun c hc =>
            cleaned_no_newline hy c (List.take_subset i y hc)),
        show (y.drop (i + 1)).map (fun c => if c = '\n' then ' ' else c) = y.drop (i + 1) from
          replaceNewlines_eq_self (fun c hc =>
            cleaned_no_newline hy c (List.drop_subset (i + 1) y hc))]
      rw [if_pos rfl]]
    rw [hsplit, collapseWs_eq_self y hy.wsSpace hy.noRun, htrim]

/-- C4: the line-balancing operation is idempotent: re-running
`balanceSegmentText` on its own output strips the inserted break, re-cleans
the whitespace, and recomputes the same result, for every input string and
every `maxCharsPerLine`. -/
theorem balanceSegmentText_idem (x : List Char) (m : ℕ) :
    balanceSegmentText (balanceSegmentText x m) m = balanceSegmentText x m := by
  unfold balanceSegmentText
  rw [cleaned_clean_format (cleaned_cleanForBalance x) m]

end SubzCreator
